import Mathlib

/-!
# Verification of the `page_tree` sparse index (src/page_tree.h)

This file gives a shallow embedding of the `page_tree` class from
`src/page_tree.h` and settles the specification claims about it.

Two complementary embeddings are used:

* a pure, inductive tree model (`Page`) for the lookup path
  (`binsearch_index`, `find_rec`), on which the data-model invariants are
  stated and lookup correctness is proved;
* an explicit heap/state model (`St`, monad `M`) for the mutating path
  (`split_node`, `insert_rec`, `insert`) in which pages live in an addressed
  store, allocation can fail (the `mmap_alloc` collaborator is not part of
  the sources and is modelled from the spec), and exceptions propagate like
  C++ exceptions (state survives a throw).

Machine integers: keys are `uint64_t` and are only ever compared (never
subjected to overflowing arithmetic), so they are modelled as `Nat`.
Counts and indexes are small (bounded by the page capacity 512), so all
index arithmetic performed by the source stays far from any wrap-around;
it is likewise modelled on `Nat`/`Int` mirroring the source expressions.
-/

namespace PageTree

set_option maxHeartbeats 1000000

set_option maxRecDepth 8000

/- Keys (`page_tree::t_idx`, i.e. `uint64_t`) are only compared, never
overflowed, and are modelled as plain `Nat`; value payloads are opaque
fixed-size blobs, modelled as one `Nat` cell per slot. -/

/-- `max_entry_per_node = 4096 / sizeof(t_idx)` from the constructor. -/
def max_entry_per_node : Nat := 4096 / 8

/-- The back-up loop inside `binsearch_index`
(`while ( mid && ary[ mid - 1 ] == value ) --mid;`): returns the start of
the run of entries equal to `value` that ends at the given position. -/
def run_start (value : Nat) (ary : List Nat) : Nat → Nat
  | 0 => 0
  | m + 1 => if ary.getD m 0 = value then run_start value ary m else m + 1

/-- The `for (;;)` loop of `binsearch_index` (src/page_tree.h:101-128).
The source loop shrinks the window `[min, max]` on every iteration, so it
performs at most `max - min + 1` iterations; `fuel` is an upper bound on
the iteration count (structural recursion so that the kernel can
evaluate), and `binsearch_index` passes `count`, which always suffices. -/
def binsearch_loop (value : Nat) (ary : List Nat) : Nat → Nat → Nat → Int
  | 0, _, _ => -1
  | fuel + 1, mn, mx =>
    if ary.getD ((mn + mx) / 2) 0 > value then
      if (mn + mx) / 2 = 0 then -1
      else if (mn + mx) / 2 = mn then (((mn + mx) / 2 : Nat) : Int) - 1
      else binsearch_loop value ary fuel mn ((mn + mx) / 2 - 1)
    else if ary.getD ((mn + mx) / 2) 0 = value then
      ((run_start value ary ((mn + mx) / 2) : Nat) : Int)
    else
      if (mn + mx) / 2 = mx then (((mn + mx) / 2 : Nat) : Int)
      else binsearch_loop value ary fuel ((mn + mx) / 2 + 1) mx

/-- `binsearch_index` (src/page_tree.h:94-129): given a sorted key array
and its valid length, return the index of the first entry of the run of
the largest key `≤ value`, or `-1` if every key is larger. -/
def binsearch_index (value : Nat) (ary : List Nat) (count : Nat) : Int :=
  if count = 0 then -1
  else binsearch_loop value ary count 0 (count - 1)

/-- The property claim C7 asserts of `binsearch_index`: the result is the
position of the *first* occurrence of the largest key `≤ value` among the
first `count` entries, or `-1` when the target is smaller than every key. -/
def firstOfLargestLE (value : Nat) (ary : List Nat) (count : Nat) (r : Int) : Prop :=
  (((ary.take count).any fun a => decide (a ≤ value)) = true →
    0 ≤ r ∧ r.toNat < count ∧ ary.getD r.toNat 0 ≤ value ∧
    (∀ i, i < count → ary.getD i 0 ≤ value → ary.getD i 0 ≤ ary.getD r.toNat 0) ∧
    (∀ i, i < r.toNat → ary.getD i 0 ≠ ary.getD r.toNat 0)) ∧
  (((ary.take count).any fun a => decide (a ≤ value)) = false → r = -1)

/-!
## Pure page model for the lookup path

`find_rec` walks pages read-only, so for lookup correctness the tree is
modelled as an inductive value. A leaf page is its key array plus its
value array; an interior page is its (fence-)key array plus its child
descriptor array, each descriptor being a child page together with the
entry count stored for it in the parent (`t_node::count`). The source
stores both kinds in one raw-memory layout and tells them apart solely
by the `depth` counter; the model mirrors this by recursing on `depth`
and treating a kind/depth mismatch as an unreachable stuck case. -/

inductive Page where
  | leaf (keys : List Nat) (vals : List Nat)
  | node (keys : List Nat) (subs : List (Page × Nat))

instance : Inhabited Page := ⟨.leaf [] []⟩

/-- `node_to_idx`: the key array of a page. -/
def Page.keys : Page → List Nat
  | .leaf keys _ => keys
  | .node keys _ => keys

/-- `node_to_value`: the value stored in slot `i` of a leaf page (the
source returns a pointer into the value region; the model returns the
cell contents). -/
def Page.valAt : Page → Nat → Option Nat
  | .leaf _ vals, i => some (vals.getD i 0)
  | .node _ _, _ => none

/-- `node_to_subnode`: the child descriptor in slot `i` of an interior
page. -/
def Page.subAt : Page → Nat → Page × Nat
  | .node _ subs, i => subs.getD i (default, 0)
  | .leaf _ _, _ => (default, 0)

/-- The `for ( ; (unsigned)i < count && p_idx[ i ] == idx ; ++i )` loop of
`find_rec`'s interior branch (src/page_tree.h:169-179). `recurse` is
`find_rec` one level down; `rem` bounds the remaining iterations
(callers pass `count - j`), keeping the recursion structural. -/
def find_loop (recurse : Int → Page → Nat → Option Nat × Int)
    (idx : Nat) (p : Page) (count : Nat) : Nat → Nat → Int → Option Nat × Int
  | 0, _, sub_idx => (none, sub_idx)
  | rem + 1, j, sub_idx =>
    if j < count ∧ (Page.keys p).getD j 0 = idx then
      let r := recurse sub_idx (Page.subAt p j).1 (Page.subAt p j).2
      if r.1.isSome then r
      else if r.2 < 0 then (none, r.2)
      else find_loop recurse idx p count rem (j + 1) r.2
    else (none, sub_idx)

/-- `find_rec` (src/page_tree.h:132-194) over the pure page model,
recursing on `depth`; the result pairs the C return value with the final
value of the by-reference parameter `sub_idx`. The source compares
`(unsigned)sub_idx < count - i` through a 64-bit unsigned cast of the
signed `sub_idx`; since `count - i ≤ 512` while the cast of any negative
`int` exceeds `2^63`, this is exactly `0 ≤ sub_idx ∧ sub_idx < count - i`. -/
def find_rec (idx : Nat) : Nat → Int → Page → Nat → Option Nat × Int
  | 0, sub_idx, p, count =>
    let i := binsearch_index idx (Page.keys p) count
    if i < 0 then (none, sub_idx)
    else if (Page.keys p).getD i.toNat 0 = idx then
      if 0 ≤ sub_idx ∧ sub_idx < (count : Int) - i then
        if (Page.keys p).getD (i.toNat + sub_idx.toNat) 0 = idx then
          (Page.valAt p (i.toNat + sub_idx.toNat), sub_idx)
        else (none, -1)
      else (none, sub_idx - ((count : Int) - i))
    else (none, sub_idx)
  | depth + 1, sub_idx, p, count =>
    let i := binsearch_index idx (Page.keys p) count
    if i < 0 then (none, sub_idx)
    else if (Page.keys p).getD i.toNat 0 = idx then
      find_loop (fun s c ccount => find_rec idx depth s c ccount) idx p count
        (count - i.toNat) i.toNat sub_idx
    else
      find_rec idx depth sub_idx (Page.subAt p i.toNat).1 (Page.subAt p i.toNat).2

/-- `find` (src/page_tree.h:339-342) on the pure model:`find_rec` from the
tree handle (root page, root count, tree depth). -/
def find (root : Page) (rootCount depth : Nat) (idx : Nat) (sub_idx : Int) :
    Option Nat :=
  (find_rec idx depth sub_idx root rootCount).1

/-- The ordered list of `(key, value)` entries of a subtree, reading the
first `count` slots of each page, recursing on `depth`. -/
def entriesAt : Nat → Page → Nat → List (Nat × Nat)
  | 0, .leaf keys vals, count => (keys.zip vals).take count
  | 0, .node _ _, _ => []
  | _ + 1, .leaf _ _, _ => []
  | d + 1, .node _ subs, count =>
    ((subs.take count).map fun c => entriesAt d c.1 c.2).flatten

/-- The values stored under key `k`, in storage order. -/
def occs (k : Nat) (l : List (Nat × Nat)) : List Nat :=
  (l.filter fun e => decide (e.1 = k)).map fun e => e.2

/-- The data-model invariants of §3 of the spec, as an executable check:
page lengths agree with the stored counts; every page's key array is
non-decreasing (leaf keys, and fence keys via the order conditions);
every child descriptor carries the child's correct entry count (≥ 1) and
a correct fence key (the child subtree's smallest = first key); entries
of one child never exceed the next child's fence; and a duplicate run is
never torn across two children: if a child's last key equals the next
child's first key, that child consists of that key only. -/
def wf : Nat → Page → Nat → Bool
  | 0, .leaf keys vals, count =>
    decide (keys.length = count) && decide (vals.length = count) &&
    decide (∀ j, j < count - 1 → keys.getD j 0 ≤ keys.getD (j + 1) 0)
  | 0, .node _ _, _ => false
  | _ + 1, .leaf _ _, _ => false
  | d + 1, .node keys subs, count =>
    decide (keys.length = count) && decide (subs.length = count) &&
    decide (∀ j, j < count → wf d (subs.getD j (default, 0)).1
      (subs.getD j (default, 0)).2 = true) &&
    decide (∀ j, j < count → 1 ≤ (subs.getD j (default, 0)).2) &&
    decide (∀ j, j < count → keys.getD j 0 =
      ((entriesAt d (subs.getD j (default, 0)).1
        (subs.getD j (default, 0)).2).headD (0, 0)).1) &&
    decide (∀ j, j < count - 1 →
      ∀ e ∈ entriesAt d (subs.getD j (default, 0)).1
        (subs.getD j (default, 0)).2, e.1 ≤ keys.getD (j + 1) 0) &&
    decide (∀ j, j < count - 1 →
      ((entriesAt d (subs.getD j (default, 0)).1
        (subs.getD j (default, 0)).2).getLastD (0, 0)).1 = keys.getD (j + 1) 0 →
      ∀ e ∈ entriesAt d (subs.getD j (default, 0)).1
        (subs.getD j (default, 0)).2, e.1 = keys.getD (j + 1) 0)

/-- The per-child entry list of an interior page. -/
def childEnt (d : Nat) (subs : List (Page × Nat)) (j : Nat) : List (Nat × Nat) :=
  entriesAt d (subs.getD j (default, 0)).1 (subs.getD j (default, 0)).2

/-- The concatenated entries of children `j, j+1, …` of an interior page. -/
def tailEnts (d : Nat) (subs : List (Page × Nat)) (count j : Nat) :
    List (Nat × Nat) :=
  (((subs.take count).drop j).map fun c => entriesAt d c.1 c.2).flatten

/-!
## Heap/state model for the mutating path

`insert` mutates pages in place and can fail in the arena, so it is
embedded in an explicit state monad with C++-like exceptions: a throw
aborts the computation but the store mutations made before it persist
(`M α` runs to `Except Unit α × St`).
-/

/-- `t_node` (src/page_tree.h:53-56): child page pointer (`none` models a
NULL pointer) and entry count. -/
structure TNode where
  ptr : Option Nat
  count : Nat
deriving DecidableEq

/-- One physical page. The source lays out a key region followed by one
region that is reused either as the value array (leaf pages) or as the
child-descriptor array (interior pages); no execution path exercised by
the claims reads one page under both interpretations, so the model
carries the two regions side by side. -/
structure HPage where
  keys : List Nat
  vals : List Nat
  subs : List TNode
deriving DecidableEq

/-- The mutable state of one `page_tree`: the pages of both arenas
(addressed by their index in `pages`), the tree handle (`tree_root`,
`tree_depth`) and the allocator state.

Modelled from the spec: the `mmap_alloc` collaborator is not in the
sources; per §4.4/§6 it exposes `alloc(size, alignment) → MemoryBlock |
AllocationFailure` over mapped memory with no free. Each arena is
modelled as a budget counter — an allocation succeeds (returning a fresh
zero-filled page, as anonymous mappings are) while its budget is
positive, and fails otherwise. `node_allocs` counts pages handed out by
`mm_nodes` (interior-page arena). -/
structure St where
  pages : List HPage
  tree_root : TNode
  tree_depth : Nat
  node_budget : Nat
  leaf_budget : Nat
  node_allocs : Nat
deriving DecidableEq

/-- The effect monad: state threading with C++-style exceptions (the
state survives a throw). -/
abbrev M (α : Type) := ExceptT Unit (StateM St) α

/-- An empty placeholder page (dereferencing NULL or an unallocated id;
never reached on the paths the claims exercise). -/
def nilPage : HPage := ⟨[], [], []⟩

def getPage (p : Option Nat) : M HPage := do
  let st ← get
  pure (st.pages.getD (p.getD 0) nilPage)

def setPage (p : Option Nat) (pg : HPage) : M Unit :=
  modify fun st => { st with pages := st.pages.set (p.getD 0) pg }

/-- Read `node_to_idx(p)[i]`. -/
def readKey (p : Option Nat) (i : Nat) : M Nat := do
  let pg ← getPage p
  pure (pg.keys.getD i 0)

def writeKey (p : Option Nat) (i : Nat) (v : Nat) : M Unit := do
  let pg ← getPage p
  setPage p { pg with keys := pg.keys.set i v }

def writeVal (p : Option Nat) (i : Nat) (v : Nat) : M Unit := do
  let pg ← getPage p
  setPage p { pg with vals := pg.vals.set i v }

/-- Read `node_to_subnode(p, i)`. -/
def readSub (p : Option Nat) (i : Nat) : M TNode := do
  let pg ← getPage p
  pure (pg.subs.getD i ⟨none, 0⟩)

def writeSub (p : Option Nat) (i : Nat) (n : TNode) : M Unit := do
  let pg ← getPage p
  setPage p { pg with subs := pg.subs.set i n }

/-- A `t_node *`: either `&tree_root` or `&node_to_subnode(page, i)`.
Every `t_node` the source mutates through a pointer lives in one of these
two places (the caller-local out-parameters are modelled as return
values, since a throw makes them unobservable). -/
inductive Ref where
  | root
  | sub (pid : Nat) (i : Nat)

def getRef : Ref → M TNode
  | .root => do pure (← get).tree_root
  | .sub pid i => readSub (some pid) i

def setRef : Ref → TNode → M Unit
  | .root, n => modify fun st => { st with tree_root := n }
  | .sub pid i, n => writeSub (some pid) i n

/-- A freshly mapped page: zero-filled. -/
def freshPage : HPage :=
  ⟨List.replicate max_entry_per_node 0, List.replicate max_entry_per_node 0,
    List.replicate max_entry_per_node ⟨none, 0⟩⟩

/-- `alloc_node_page` (src/page_tree.h:77-83): allocate from `mm_nodes`
or throw `std::bad_alloc`. -/
def alloc_node_page : M Nat := do
  let st ← get
  if st.node_budget = 0 then
    throw ()
  else do
    set { st with
      pages := st.pages ++ [freshPage],
      node_budget := st.node_budget - 1,
      node_allocs := st.node_allocs + 1 }
    pure st.pages.length

/-- `alloc_leaf_page` (src/page_tree.h:85-91): allocate from `mm_leaves`
or throw `std::bad_alloc`. -/
def alloc_leaf_page : M Nat := do
  let st ← get
  if st.leaf_budget = 0 then
    throw ()
  else do
    set { st with
      pages := st.pages ++ [freshPage],
      leaf_budget := st.leaf_budget - 1 }
    pure st.pages.length

/-- A `memmove` of `n` contiguous elements from `src` at `srcOff` into
`dst` at `dstOff` (regions of distinct pages in `split_node`, so no
overlap arises; all exercised offsets are in range). -/
def copySeg (src : List α) (srcOff : Nat) (dst : List α) (dstOff n : Nat) :
    List α :=
  dst.take dstOff ++ ((src.drop srcOff).take n ++ dst.drop (dstOff + n))

/-- The `while ( p_idx[ split_idx ] == p_idx[ 0 ] ) ++split_idx;` loop of
`split_node`. The source relies on `p_idx[count-1] != p_idx[0]` for
termination; `fuel` (called with `count`) only makes the recursion
structural and is never exhausted on the source's call pattern. -/
def adv (keys : List Nat) : Nat → Nat → Nat
  | 0, s => s
  | fuel + 1, s => if keys.getD s 0 = keys.getD 0 0 then adv keys fuel (s + 1) else s

/-- The `while ( split_idx > 0 && p_idx[ split_idx ] == p_idx[ split_idx - 1 ] )
--split_idx;` loop of `split_node`. -/
def retreat (keys : List Nat) : Nat → Nat
  | 0 => 0
  | s + 1 => if keys.getD (s + 1) 0 = keys.getD s 0 then retreat keys s else s + 1

/-- `split_node` (src/page_tree.h:199-236). Populates and returns the
`new_node` out-parameter; updates `old_node->count` through the
reference. Note the source truncates `old_node->count` *before*
allocating the sibling page, and its index `memmove` copies from offset
`0` of the old page rather than from `split_idx` (the value/descriptor
moves do use `split_idx`). -/
def split_node (old : Ref) (is_leaf : Bool) : M TNode := do
  let oldv ← getRef old
  let p ← getPage oldv.ptr
  let split0 := oldv.count / 2
  let split_idx :=
    if p.keys.getD split0 0 = p.keys.getD 0 0 then
      if p.keys.getD (oldv.count - 1) 0 ≠ p.keys.getD 0 0 then
        adv p.keys oldv.count split0
      else split0
    else
      retreat p.keys split0
  let new_count := oldv.count - split_idx
  setRef old { oldv with count := split_idx }
  let newptr ← (if is_leaf then alloc_leaf_page else alloc_node_page)
  let pold ← getPage oldv.ptr
  let pnew ← getPage (some newptr)
  setPage (some newptr)
    { pnew with keys := copySeg pold.keys 0 pnew.keys 0 new_count }
  if is_leaf then do
    let pnew2 ← getPage (some newptr)
    setPage (some newptr)
      { pnew2 with vals := copySeg pold.vals split_idx pnew2.vals 0 new_count }
  else do
    let pnew2 ← getPage (some newptr)
    setPage (some newptr)
      { pnew2 with subs := copySeg pold.subs split_idx pnew2.subs 0 new_count }
  pure { ptr := some newptr, count := new_count }

/-- `insert_rec` (src/page_tree.h:241-321), recursing on `depth`. The
result pairs the returned value-slot pointer (page id, slot) with the
final value of the `sibling` out-parameter. -/
def insert_rec (idx : Nat) : Nat → Ref → M (Option (Nat × Nat) × TNode)
  | 0, cur => do
    let curv ← getRef cur
    let (sib, leafIsSib) ←
      if curv.count ≥ max_entry_per_node then do
        let sib ← split_node cur true
        let first ← readKey sib.ptr 0
        pure (sib, decide (idx ≥ first))
      else
        pure (({ ptr := none, count := 0 } : TNode), false)
    let curv2 ← getRef cur
    let leafN := if leafIsSib then sib else curv2
    let pg ← getPage leafN.ptr
    let i0 := binsearch_index idx pg.keys leafN.count
    let i1 := if i0 < 0 then 0 else i0.toNat
    let i := if i1 < leafN.count ∧ pg.keys.getD i1 0 < idx then i1 + 1 else i1
    if i < leafN.count then do
      -- the source's memmove sizes are sizeof(t_idx) / value_malloc_size:
      -- exactly one slot is moved
      writeKey leafN.ptr (i + 1) (pg.keys.getD i 0)
      writeVal leafN.ptr (i + 1) (pg.vals.getD i 0)
    writeKey leafN.ptr i idx
    let leafN2 := { leafN with count := leafN.count + 1 }
    if leafIsSib then
      pure (some (leafN.ptr.getD 0, i), leafN2)
    else do
      setRef cur leafN2
      pure (some (leafN.ptr.getD 0, i), sib)
  | depth + 1, cur => do
    let curv ← getRef cur
    let pg ← getPage curv.ptr
    let i0 := binsearch_index idx pg.keys curv.count
    let i := if i0 < 0 then 0 else i0.toNat
    let (ret_ptr, splitted) ← insert_rec idx depth (Ref.sub (curv.ptr.getD 0) i)
    -- update self.idx[ i ]
    let subv ← getRef (Ref.sub (curv.ptr.getD 0) i)
    let sub_first ← readKey subv.ptr 0
    let ki ← readKey curv.ptr i
    if sub_first < ki then
      writeKey curv.ptr i sub_first
    match splitted.ptr with
    | none => pure (ret_ptr, { ptr := none, count := 0 })
    | some sp => do
      -- new subnode was allocated; the source intends to insert it here
      let newleaf_idx ← readKey (some sp) 0
      let curv2 ← getRef cur
      let (sib, nodeIsSib) ←
        if curv2.count ≥ max_entry_per_node then do
          let sib ← split_node cur false
          let sfirst ← readKey sib.ptr 0
          pure (sib, decide (sfirst ≥ newleaf_idx))
        else
          pure (({ ptr := none, count := 0 } : TNode), false)
      let curv3 ← getRef cur
      let nodeN := if nodeIsSib then sib else curv3
      let pg2 ← getPage nodeN.ptr
      let j0 := binsearch_index newleaf_idx pg2.keys nodeN.count
      let j1 := if j0 < 0 then 0 else j0.toNat
      let j := if j1 < nodeN.count ∧ pg2.keys.getD j1 0 < newleaf_idx then j1 + 1
        else j1
      if j < nodeN.count then do
        writeKey nodeN.ptr (j + 1) (pg2.keys.getD j 0)
        writeSub nodeN.ptr (j + 1) (pg2.subs.getD j ⟨none, 0⟩)
      -- src/page_tree.h:319: after the (one-slot) moves the function
      -- returns; the new child's key and descriptor are never written
      -- and node->count is never incremented
      pure (ret_ptr, sib)

/-- `insert` (src/page_tree.h:348-360): run `insert_rec` from the tree
handle; if the root was split, only `tree_depth` is incremented — no new
root page is allocated and `tree_root` is not redirected. -/
def insert (idx : Nat) : M (Option (Nat × Nat)) := do
  let st ← get
  let (p, newnode) ← insert_rec idx st.tree_depth Ref.root
  if newnode.ptr.isSome then
    modify fun st2 => { st2 with tree_depth := st2.tree_depth + 1 }
  pure p

/-- An `insert` followed by the caller immediately writing value `v`
through the returned slot, as the contract prescribes. -/
def insert_put (idx v : Nat) : M (Option (Nat × Nat)) := do
  let r ← insert idx
  match r with
  | some (pid, i) => do
    writeVal (some pid) i v
    pure r
  | none => pure r

/-- The constructor body (src/page_tree.h:324-333): allocate the root
leaf, zero the count and depth. -/
def page_tree_ctor : M Unit := do
  let p ← alloc_leaf_page
  modify fun st => { st with
    tree_root := { ptr := some p, count := 0 },
    tree_depth := 0 }

/-- The state before construction: no pages, null root, given arena
budgets. -/
def empty_st (leafB nodeB : Nat) : St :=
  { pages := [],
    tree_root := { ptr := none, count := 0 },
    tree_depth := 0,
    node_budget := nodeB,
    leaf_budget := leafB,
    node_allocs := 0 }

/-- A freshly constructed tree with the given arena budgets. -/
def init_st (leafB nodeB : Nat) : St :=
  ((page_tree_ctor.run).run (empty_st leafB nodeB)).2

/-- The sibling scan of `find_rec` at an interior node
(src/page_tree.h:169-177), over the heap. `recurse` is the recursive
call one level down; `rem` (called with `count - j`) makes the recursion
structural and matches the loop's remaining iterations exactly. -/
def find_loop_st
    (recurse : Int → Option Nat → Nat → M (Option (Nat × Nat) × Int))
    (idx : Nat) (pid : Option Nat) (count : Nat) :
    Nat → Nat → Int → M (Option (Nat × Nat) × Int)
  | 0, _, sub => pure (none, sub)
  | rem + 1, j, sub => do
    let kj ← readKey pid j
    if j < count ∧ kj = idx then do
      let n ← readSub pid j
      let r ← recurse sub n.ptr n.count
      if r.1.isSome then pure r
      else if r.2 < 0 then pure (none, r.2)
      else find_loop_st recurse idx pid count rem (j + 1) r.2
    else pure (none, sub)

/-- `find_rec` (src/page_tree.h:132-194) over the heap, recursing on
`depth`. The result pairs the found value slot (page id, slot index)
with the final value of the `sub_idx` reference. The unsigned comparison
`(unsigned)sub_idx < count - i` is modelled as
`0 ≤ sub_idx ∧ sub_idx < count - i` (the cast wraps negatives to large
values, failing the comparison, and `count - i ≥ 1` never wraps since
`i < count`). -/
def find_rec_st (idx : Nat) :
    Nat → Int → Option Nat → Nat → M (Option (Nat × Nat) × Int)
  | 0, sub_idx, ptr, count => do
    let pg ← getPage ptr
    let i := binsearch_index idx pg.keys count
    if i < 0 then pure (none, sub_idx)
    else if pg.keys.getD i.toNat 0 = idx then
      if 0 ≤ sub_idx ∧ sub_idx < (count : Int) - i then
        if pg.keys.getD (i.toNat + sub_idx.toNat) 0 = idx then
          pure (some (ptr.getD 0, i.toNat + sub_idx.toNat), sub_idx)
        else pure (none, -1)
      else pure (none, sub_idx - ((count : Int) - i))
    else pure (none, sub_idx)
  | depth + 1, sub_idx, ptr, count => do
    let pg ← getPage ptr
    let i := binsearch_index idx pg.keys count
    if i < 0 then pure (none, sub_idx)
    else if pg.keys.getD i.toNat 0 = idx then
      find_loop_st (fun s p c => find_rec_st idx depth s p c) idx ptr count
        (count - i.toNat) i.toNat sub_idx
    else do
      let n ← readSub ptr i.toNat
      find_rec_st idx depth sub_idx n.ptr n.count

/-- `find` (src/page_tree.h:339-342) over the heap: start `find_rec`
from the tree handle. -/
def find_st (idx : Nat) (sub_idx : Int) : M (Option (Nat × Nat)) := do
  let st ← get
  let r ← find_rec_st idx st.tree_depth sub_idx st.tree_root.ptr
    st.tree_root.count
  pure r.1

/-!
## Executing the heap model

`runM` runs one tree operation on a store; the scenario states below are
the concrete trees the mutating-path claims are settled on.
-/

/-- Run a computation on a state: the result and the final state (the
state is kept even when the result is an exception, as in C++). -/
def runM {α : Type} (m : M α) (st : St) : Except Unit α × St := (m.run).run st

/-- `m` reads the store but never writes it. -/
def preserves {α : Type} (m : M α) : Prop := ∀ st, (runM m st).2 = st

/-- Read the value stored in the slot a find/insert handle points to. -/
def deref (st : St) : Option (Nat × Nat) → Option Nat
  | none => none
  | some (pid, i) => some ((st.pages.getD pid nilPage).vals.getD i 0)

/-- The value `find(k, i)` exposes on state `st` (not-found gives `none`;
`find` never allocates, so no failure arises). -/
def findVal (st : St) (k : Nat) (i : Int) : Option Nat :=
  match (runM (find_st k i) st).1 with
  | .ok r => deref st r
  | .error _ => none

/-- A freshly constructed tree with ample arena budgets. -/
def fresh_st : St := init_st 100 100

/-- `fresh_st` after `insert(5)` ← A and `insert(5)` ← B: each returned
slot is written by the caller, per the contract. -/
def twoDup_st (A B : Nat) : St :=
  (runM (do
    let _ ← insert_put 5 A
    let _ ← insert_put 5 B
    pure ()) fresh_st).2

/-- `fresh_st` after inserting keys 2, 3, 1 with values 102, 103, 101. -/
def seq231_st : St :=
  (runM (do
    let _ ← insert_put 2 102
    let _ ← insert_put 3 103
    let _ ← insert_put 1 101
    pure ()) fresh_st).2

/-- A full leaf page: the 512 distinct sorted keys 0..511, the value
`1000 + key` in each slot. -/
def fullLeaf : HPage :=
  { keys := List.range 512,
    vals := (List.range 512).map (fun v => v + 1000),
    subs := List.replicate 512 ⟨none, 0⟩ }

/-- A tree of depth 0 whose root leaf is full, with arena room to split. -/
def fullRoot_st : St :=
  { pages := [fullLeaf],
    tree_root := ⟨some 0, 512⟩,
    tree_depth := 0,
    node_budget := 100,
    leaf_budget := 100,
    node_allocs := 0 }

/-- An interior page whose single valid entry (fence key 0) covers the
full leaf page 0. -/
def rootPage : HPage :=
  { keys := List.replicate 512 0,
    vals := List.replicate 512 0,
    subs := (List.replicate 512 (⟨none, 0⟩ : TNode)).set 0 ⟨some 0, 512⟩ }

/-- A tree of depth 1: interior root (page 1, one entry) over a full
leaf (page 0), so the next insert splits the child under a parent with
plenty of free slots. -/
def parentChild_st : St :=
  { pages := [fullLeaf, rootPage],
    tree_root := ⟨some 1, 1⟩,
    tree_depth := 1,
    node_budget := 100,
    leaf_budget := 100,
    node_allocs := 0 }

/-- A full sorted leaf page over an arbitrary value array `V`. -/
def vPage (V : List Nat) : HPage :=
  { keys := List.range 512,
    vals := V,
    subs := List.replicate 512 ⟨none, 0⟩ }

/-- A tree of depth 0 whose root leaf is full while both arenas are
exhausted: the next insert must split and the split must fail to
allocate. -/
def noBudget_st (V : List Nat) : St :=
  { pages := [vPage V],
    tree_root := ⟨some 0, 512⟩,
    tree_depth := 0,
    node_budget := 0,
    leaf_budget := 0,
    node_allocs := 0 }

/-- The value array of `fullLeaf`: value `1000 + key` per slot. -/
def fullVals : List Nat := (List.range 512).map (fun v => v + 1000)

/-!
## Theorems

Everything below is proved about the definitions above: first the
binary-search and lookup specifications on the pure model, then the
frame and mutation facts on the heap model, including the claim
theorems.
-/

/-- Specification of the back-up loop: the result is at most the start
position, still carries `value`, and has no equal entry immediately
before it. -/
theorem run_start_spec (value : Nat) (ary : List Nat) (m : Nat)
    (h : ary.getD m 0 = value) :
    run_start value ary m ≤ m ∧ ary.getD (run_start value ary m) 0 = value ∧
      (run_start value ary m = 0 ∨ ary.getD (run_start value ary m - 1) 0 ≠ value) := by
  induction m with
  | zero => exact ⟨Nat.le_refl _, h, Or.inl rfl⟩
  | succ n ih =>
    by_cases hp : ary.getD n 0 = value
    · have := ih hp
      simp only [run_start, if_pos hp]
      exact ⟨Nat.le_succ_of_le this.1, this.2.1, this.2.2⟩
    · simp only [run_start, if_neg hp]
      exact ⟨Nat.le_refl _, h, Or.inr (by simpa using hp)⟩

/-- The full postcondition of the binary-search loop, phrased on the
`getD` view of the first `count` entries, for any sufficient fuel. -/
theorem binsearch_loop_spec (value : Nat) (ary : List Nat) (count : Nat)
    (hsort : ∀ i j, i ≤ j → j < count → ary.getD i 0 ≤ ary.getD j 0) :
    ∀ fuel mn mx, mn ≤ mx → mx < count → mx - mn < fuel →
    (mn = 0 ∨ ary.getD (mn - 1) 0 < value) →
    (mx = count - 1 ∨ value < ary.getD (mx + 1) 0) →
    (binsearch_loop value ary fuel mn mx = -1 ↔ value < ary.getD 0 0) ∧
    (0 ≤ binsearch_loop value ary fuel mn mx →
      (binsearch_loop value ary fuel mn mx).toNat < count ∧
      ary.getD (binsearch_loop value ary fuel mn mx).toNat 0 ≤ value) ∧
    (∀ i, i < count → ary.getD i 0 = value →
      0 ≤ binsearch_loop value ary fuel mn mx ∧
      ary.getD (binsearch_loop value ary fuel mn mx).toNat 0 = value ∧
      ∀ j, j < (binsearch_loop value ary fuel mn mx).toNat → ary.getD j 0 ≠ value) ∧
    ((∀ i, i < count → ary.getD i 0 ≠ value) → 0 ≤ binsearch_loop value ary fuel mn mx →
      ary.getD (binsearch_loop value ary fuel mn mx).toNat 0 < value ∧
      ∀ i, i < count → ary.getD i 0 < value → i ≤ (binsearch_loop value ary fuel mn mx).toNat) := by
  intro fuel
  induction fuel with
  | zero => intro mn mx hmn hmx hfuel hlo hhi; omega
  | succ fuel ih =>
    intro mn mx hmn hmx hfuel hlo hhi
    rw [binsearch_loop]
    by_cases hgt : ary.getD ((mn + mx) / 2) 0 > value
    · rw [if_pos hgt]
      by_cases hz : (mn + mx) / 2 = 0
      · -- mid = 0: return -1; here mn = 0 and ary[0] > value
        rw [if_pos hz]
        have h0 : value < ary.getD 0 0 := by
          have h2 := hgt; rw [hz] at h2; exact h2
        refine ⟨⟨fun _ => h0, fun _ => rfl⟩, ?_, ?_, ?_⟩
        · intro h; exact absurd h (by decide)
        · intro i hi hv
          exfalso
          have := hsort 0 i (Nat.zero_le _) hi
          omega
        · intro _ h; exact absurd h (by decide)
      · rw [if_neg hz]
        by_cases heq : (mn + mx) / 2 = mn
        · -- mid = mn ≠ 0: return mn - 1
          rw [if_pos heq]
          have hmnpos : 0 < mn := by omega
          have hprev : ary.getD (mn - 1) 0 < value := by
            rcases hlo with h | h
            · omega
            · exact h
          have hge0 : ary.getD 0 0 ≤ ary.getD (mn - 1) 0 :=
            hsort 0 (mn - 1) (Nat.zero_le _) (by omega)
          have hmidv : value < ary.getD mn 0 := by
            have h2 := hgt; rw [heq] at h2; exact h2
          rw [heq]
          have hr : ((mn : Int) - 1).toNat = mn - 1 := by omega
          rw [hr]
          refine ⟨iff_of_false (by omega) (by omega), ?_, ?_, ?_⟩
          · intro _
            exact ⟨by omega, by omega⟩
          · intro i hi hv
            exfalso
            rcases Nat.lt_or_ge i mn with h | h
            · have := hsort i (mn - 1) (by omega) (by omega); omega
            · have := hsort mn i h hi; omega
          · intro _ _
            refine ⟨by omega, ?_⟩
            intro i hi hv
            by_contra hgt2
            have := hsort mn i (by omega) hi
            omega
        · -- mid ≠ 0, mid ≠ mn: recurse on (mn, mid - 1)
          rw [if_neg heq]
          refine ih mn ((mn + mx) / 2 - 1) (by omega) (by omega) (by omega) hlo
            (Or.inr ?_)
          have h2 : (mn + mx) / 2 - 1 + 1 = (mn + mx) / 2 := by omega
          rw [h2]
          exact hgt
    · rw [if_neg hgt]
      by_cases heq : ary.getD ((mn + mx) / 2) 0 = value
      · -- ary[mid] = value: return run_start
        rw [if_pos heq]
        obtain ⟨hle, hv, hfst⟩ := run_start_spec value ary ((mn + mx) / 2) heq
        have hr : ((run_start value ary ((mn + mx) / 2) : Nat) : Int).toNat =
            run_start value ary ((mn + mx) / 2) := by omega
        rw [hr]
        have h0le : ary.getD 0 0 ≤ value := by
          have := hsort 0 ((mn + mx) / 2) (Nat.zero_le _) (by omega)
          omega
        refine ⟨iff_of_false (by omega) (by omega), ?_, ?_, ?_⟩
        · intro _
          exact ⟨by omega, Nat.le_of_eq hv⟩
        · intro i hi hvi
          refine ⟨by omega, hv, ?_⟩
          intro j hj
          rcases hfst with h | h
          · omega
          · have h1 : ary.getD (run_start value ary ((mn + mx) / 2) - 1) 0 <
                value := by
              have := hsort (run_start value ary ((mn + mx) / 2) - 1)
                (run_start value ary ((mn + mx) / 2)) (by omega) (by omega)
              omega
            have := hsort j (run_start value ary ((mn + mx) / 2) - 1) (by omega)
              (by omega)
            omega
        · intro hno _
          exact absurd heq (hno _ (by omega))
      · rw [if_neg heq]
        have hlt : ary.getD ((mn + mx) / 2) 0 < value := by omega
        by_cases hmx2 : (mn + mx) / 2 = mx
        · -- mid = mx: return mx
          rw [if_pos hmx2]
          have hmxv : ary.getD mx 0 < value := by
            have h2 := hlt; rw [hmx2] at h2; exact h2
          rw [hmx2]
          have hr : ((mx : Nat) : Int).toNat = mx := by omega
          rw [hr]
          have h0le : ary.getD 0 0 ≤ ary.getD mx 0 := hsort 0 mx (Nat.zero_le _) hmx
          refine ⟨iff_of_false (by omega) (by omega), ?_, ?_, ?_⟩
          · intro _
            exact ⟨hmx, by omega⟩
          · intro i hi hv
            exfalso
            rcases le_or_lt i mx with h | h
            · have := hsort i mx h hmx; omega
            · rcases hhi with hh | hh
              · omega
              · have := hsort (mx + 1) i h hi; omega
          · intro _ _
            refine ⟨hmxv, ?_⟩
            intro i hi hv
            by_contra hgt2
            rcases hhi with hh | hh
            · omega
            · have := hsort (mx + 1) i (by omega) hi; omega
        · -- mid ≠ mx: recurse on (mid + 1, mx)
          rw [if_neg hmx2]
          refine ih ((mn + mx) / 2 + 1) mx (by omega) hmx (by omega) (Or.inr ?_)
            hhi
          have h2 : (mn + mx) / 2 + 1 - 1 = (mn + mx) / 2 := by omega
          rw [h2]
          exact hlt

/-- C7 counterexample: for the sorted array `[1,1,3]` and target `2`, the
source binary search returns index `1`, which holds the largest key `≤ 2`
(namely `1`) but is not the position of its *first* occurrence (index `0`),
so the claim "returns the position of the first occurrence of the largest
key ≤ the target" is false as stated. -/
theorem claim_C7_counterexample :
    binsearch_index 2 [1, 1, 3] 3 = 1 ∧
      ¬ firstOfLargestLE 2 [1, 1, 3] 3 (binsearch_index 2 [1, 1, 3] 3) := by
  unfold firstOfLargestLE
  decide

/-- C7, amended: on a sorted key array, `binsearch_index` returns `-1`
exactly when the array is empty or the target is smaller than every key;
otherwise it returns a position holding the largest key `≤` the target —
on an exact match this is the *first* index of the equal-key run, and when
the target itself is absent it is the *last* index holding a smaller key. -/
theorem claim_C7 (value : Nat) (ary : List Nat) (count : Nat)
    (hsort : ∀ j, j < count → ∀ i, i ≤ j → ary.getD i 0 ≤ ary.getD j 0) :
    (binsearch_index value ary count = -1 ↔
      (count = 0 ∨ value < ary.getD 0 0)) ∧
    (0 ≤ binsearch_index value ary count →
      (binsearch_index value ary count).toNat < count ∧
      ary.getD (binsearch_index value ary count).toNat 0 ≤ value) ∧
    (∀ i, i < count → ary.getD i 0 = value →
      0 ≤ binsearch_index value ary count ∧
      ary.getD (binsearch_index value ary count).toNat 0 = value ∧
      ∀ j, j < (binsearch_index value ary count).toNat → ary.getD j 0 ≠ value) ∧
    ((∀ i, i < count → ary.getD i 0 ≠ value) →
      0 ≤ binsearch_index value ary count →
      ary.getD (binsearch_index value ary count).toNat 0 < value ∧
      ∀ i, i < count → ary.getD i 0 < value →
        i ≤ (binsearch_index value ary count).toNat) := by
  by_cases hc : count = 0
  · subst hc
    have hb : binsearch_index value ary 0 = -1 := rfl
    rw [hb]
    refine ⟨⟨fun _ => Or.inl rfl, fun _ => rfl⟩, ?_, ?_, ?_⟩
    · intro h; exact absurd h (by decide)
    · intro i hi; exact absurd hi (by omega)
    · intro _ h; exact absurd h (by decide)
  · have hsort2 : ∀ i j, i ≤ j → j < count → ary.getD i 0 ≤ ary.getD j 0 :=
      fun i j hij hj => hsort j hj i hij
    have hspec := binsearch_loop_spec value ary count hsort2 count 0 (count - 1)
      (by omega) (by omega) (by omega) (Or.inl rfl) (Or.inl rfl)
    have hb : binsearch_index value ary count =
        binsearch_loop value ary count 0 (count - 1) := by
      rw [binsearch_index]
      exact if_neg hc
    rw [hb]
    refine ⟨⟨fun h => Or.inr (hspec.1.mp h), fun h => ?_⟩,
      hspec.2.1, hspec.2.2.1, hspec.2.2.2⟩
    rcases h with h | h
    · exact absurd h hc
    · exact hspec.1.mpr h

/-- Witness for the amended C7 theorem at the concrete sorted array
`[1,1,3]`, target `2`: hypothesis discharged by evaluation, conclusion
obtained by applying the theorem. -/
theorem claim_C7_witness :
    (∀ j, j < 3 → ∀ i, i ≤ j →
      ([1, 1, 3] : List Nat).getD i 0 ≤ [1, 1, 3].getD j 0) ∧
    (0 ≤ binsearch_index 2 [1, 1, 3] 3 →
      (binsearch_index 2 [1, 1, 3] 3).toNat < 3 ∧
      ([1, 1, 3] : List Nat).getD (binsearch_index 2 [1, 1, 3] 3).toNat 0 ≤ 2) :=
  ⟨by decide, (claim_C7 2 [1, 1, 3] 3 (by decide)).2.1⟩

/-- A key array that is non-decreasing between adjacent slots is
monotone over the whole valid range. -/
theorem mono_of_adj (f : Nat → Nat) (n : Nat)
    (h : ∀ j, j < n - 1 → f j ≤ f (j + 1)) :
    ∀ i j, i ≤ j → j < n → f i ≤ f j := by
  intro i j hij hj
  induction j, hij using Nat.le_induction with
  | base => exact Nat.le_refl _
  | succ j hij ih =>
    exact Nat.le_trans (ih (by omega)) (h j (by omega))

theorem occs_cons_pos (k : Nat) (e : Nat × Nat) (tl : List (Nat × Nat))
    (h : e.1 = k) : occs k (e :: tl) = e.2 :: occs k tl := by
  simp [occs, List.filter_cons, h]

theorem occs_cons_neg (k : Nat) (e : Nat × Nat) (tl : List (Nat × Nat))
    (h : ¬ e.1 = k) : occs k (e :: tl) = occs k tl := by
  simp [occs, List.filter_cons, h]

theorem occs_append (k : Nat) (a b : List (Nat × Nat)) :
    occs k (a ++ b) = occs k a ++ occs k b := by
  simp [occs]

/-- If the positions holding key `k` in `l` are exactly the window
`[i0, i0 + m)`, then `occs k l` has length `m` and its `t`-th element is
the value in slot `i0 + t`. -/
theorem occs_window (k : Nat) :
    ∀ (l : List (Nat × Nat)) (i0 m : Nat),
    (∀ j, j < l.length → ((l.getD j (0, 0)).1 = k ↔ (i0 ≤ j ∧ j < i0 + m))) →
    i0 + m ≤ l.length →
    (occs k l).length = m ∧
    ∀ t, (occs k l)[t]? =
      if t < m then some ((l.getD (i0 + t) (0, 0)).2) else none := by
  intro l
  induction l with
  | nil =>
    intro i0 m hwin hle
    have hm : m = 0 := by simp at hle; omega
    subst hm
    refine ⟨rfl, ?_⟩
    intro t
    simp [occs]
  | cons e tl ih =>
    intro i0 m hwin hle
    by_cases hi0 : i0 = 0
    · subst hi0
      match m with
      | 0 =>
        have hek : ¬ e.1 = k := by
          have := hwin 0 (by simp)
          simp at this
          simpa using this
        rw [occs_cons_neg k e tl hek]
        have hwin2 : ∀ j, j < tl.length →
            ((tl.getD j (0, 0)).1 = k ↔ (0 ≤ j ∧ j < 0 + 0)) := by
          intro j hj
          have := hwin (j + 1) (by simp; omega)
          simpa using this
        obtain ⟨hl2, hg2⟩ := ih 0 0 hwin2 (by omega)
        refine ⟨hl2, ?_⟩
        intro t
        have := hg2 t
        simpa using this
      | m' + 1 =>
        have hek : e.1 = k := by
          have h0 := hwin 0 (by simp)
          rw [List.getD_cons_zero] at h0
          exact h0.mpr ⟨Nat.le_refl 0, by omega⟩
        rw [occs_cons_pos k e tl hek]
        have hwin2 : ∀ j, j < tl.length →
            ((tl.getD j (0, 0)).1 = k ↔ (0 ≤ j ∧ j < 0 + m')) := by
          intro j hj
          have := hwin (j + 1) (by simp; omega)
          simp only [List.getD_cons_succ] at this
          constructor
          · intro h2; have := this.mp h2; omega
          · intro h2; exact this.mpr (by omega)
        obtain ⟨hl2, hg2⟩ := ih 0 m' hwin2 (by simp only [List.length_cons] at hle; omega)
        constructor
        · simp [hl2]
        · intro t
          match t with
          | 0 => simp
          | t' + 1 =>
            simp only [List.getElem?_cons_succ]
            rw [hg2 t']
            by_cases ht : t' < m'
            · rw [if_pos ht, if_pos (by omega)]
              have : (0 : Nat) + (t' + 1) = (0 + t') + 1 := by omega
              rw [this, List.getD_cons_succ]
            · rw [if_neg ht, if_neg (by omega)]
    · have hi0pos : 0 < i0 := by omega
      have hek : ¬ e.1 = k := by
        have := hwin 0 (by simp)
        simp only [List.getD_cons_zero] at this
        intro hk
        have := this.mp hk
        omega
      rw [occs_cons_neg k e tl hek]
      have hwin2 : ∀ j, j < tl.length →
          ((tl.getD j (0, 0)).1 = k ↔ (i0 - 1 ≤ j ∧ j < (i0 - 1) + m)) := by
        intro j hj
        have := hwin (j + 1) (by simp; omega)
        simp only [List.getD_cons_succ] at this
        constructor
        · intro h2; have := this.mp h2; omega
        · intro h2; exact this.mpr (by omega)
      obtain ⟨hl2, hg2⟩ := ih (i0 - 1) m hwin2 (by simp only [List.length_cons] at hle; omega)
      refine ⟨hl2, ?_⟩
      intro t
      rw [hg2 t]
      by_cases ht : t < m
      · rw [if_pos ht, if_pos ht]
        have : i0 + t = ((i0 - 1) + t) + 1 := by omega
        rw [this, List.getD_cons_succ]
      · rw [if_neg ht, if_neg ht]

/-- If no valid slot of `l` holds key `k` there are no occurrences. -/
theorem occs_nil_of_no_match (k : Nat) (l : List (Nat × Nat))
    (h : ∀ j, j < l.length → (l.getD j (0, 0)).1 ≠ k) : occs k l = [] := by
  have := occs_window k l 0 0 (by
    intro j hj
    constructor
    · intro hk; exact absurd hk (h j hj)
    · intro hk; omega) (by omega)
  have hlen := this.1
  exact List.length_eq_zero.mp hlen

theorem headD_eq_getD (l : List (Nat × Nat)) (d : Nat × Nat) :
    l.headD d = l.getD 0 d := by
  cases l <;> simp

theorem getLastD_eq_getD (l : List (Nat × Nat)) (d : Nat × Nat) :
    l.getLastD d = l.getD (l.length - 1) d := by
  rw [List.getLastD_eq_getLast? d l, List.getLast?_eq_getElem? l,
    List.getD_eq_getElem?_getD]

/-- Unfolding of the leaf well-formedness check. -/
theorem wf_leaf_iff (keys vals : List Nat) (count : Nat) :
    wf 0 (Page.leaf keys vals) count = true ↔
      (keys.length = count ∧ vals.length = count ∧
        ∀ j, j < count - 1 → keys.getD j 0 ≤ keys.getD (j + 1) 0) := by
  simp [wf, and_assoc]

/-- Unfolding of the interior-page well-formedness check. -/
theorem wf_node_iff (d : Nat) (keys : List Nat) (subs : List (Page × Nat))
    (count : Nat) :
    wf (d + 1) (Page.node keys subs) count = true ↔
      (keys.length = count ∧ subs.length = count ∧
        (∀ j, j < count → wf d (subs.getD j (default, 0)).1
          (subs.getD j (default, 0)).2 = true) ∧
        (∀ j, j < count → 1 ≤ (subs.getD j (default, 0)).2) ∧
        (∀ j, j < count → keys.getD j 0 =
          ((entriesAt d (subs.getD j (default, 0)).1
            (subs.getD j (default, 0)).2).headD (0, 0)).1) ∧
        (∀ j, j < count - 1 →
          ∀ e ∈ entriesAt d (subs.getD j (default, 0)).1
            (subs.getD j (default, 0)).2, e.1 ≤ keys.getD (j + 1) 0) ∧
        (∀ j, j < count - 1 →
          ((entriesAt d (subs.getD j (default, 0)).1
            (subs.getD j (default, 0)).2).getLastD (0, 0)).1 =
              keys.getD (j + 1) 0 →
          ∀ e ∈ entriesAt d (subs.getD j (default, 0)).1
            (subs.getD j (default, 0)).2, e.1 = keys.getD (j + 1) 0)) := by
  simp [wf, and_assoc]

theorem entries_leaf_length (keys vals : List Nat) (count : Nat)
    (hk : keys.length = count) (hv : vals.length = count) :
    (entriesAt 0 (Page.leaf keys vals) count).length = count := by
  show ((keys.zip vals).take count).length = count
  simp [List.length_take, List.length_zip]
  omega

theorem entries_leaf_getD (keys vals : List Nat) (count j : Nat)
    (hk : keys.length = count) (hv : vals.length = count) (hj : j < count) :
    (entriesAt 0 (Page.leaf keys vals) count).getD j (0, 0) =
      (keys.getD j 0, vals.getD j 0) := by
  show ((keys.zip vals).take count).getD j (0, 0) = _
  rw [List.getD_eq_getElem?_getD, List.getElem?_take_of_lt hj,
    List.getElem?_eq_getElem (l := keys.zip vals)
      (by simp [List.length_zip]; omega)]
  simp only [Option.getD_some, List.getElem_zip]
  rw [List.getD_eq_getElem keys 0 (by omega), List.getD_eq_getElem vals 0 (by omega)]

theorem entries_node_eq_tail (d : Nat) (keys : List Nat)
    (subs : List (Page × Nat)) (count : Nat) :
    entriesAt (d + 1) (Page.node keys subs) count = tailEnts d subs count 0 := by
  simp [entriesAt, tailEnts]

theorem tailEnts_step (d : Nat) (subs : List (Page × Nat)) (count j : Nat)
    (hlen : subs.length = count) (hj : j < count) :
    tailEnts d subs count j = childEnt d subs j ++ tailEnts d subs count (j + 1) := by
  have hjlen : j < (subs.take count).length := by
    simp [List.length_take]; omega
  rw [tailEnts, List.drop_eq_getElem_cons hjlen, List.map_cons, List.flatten_cons]
  have h2 : (subs.take count)[j] = subs.getD j (default, 0) := by
    have h1 : (subs.take count)[j]? = subs[j]? := List.getElem?_take_of_lt hj
    rw [List.getElem?_eq_getElem hjlen] at h1
    rw [List.getD_eq_getElem?_getD, ← h1]
    simp
  rw [h2, childEnt, tailEnts]

theorem tailEnts_end (d : Nat) (subs : List (Page × Nat)) (count j : Nat)
    (hj : count ≤ j) : tailEnts d subs count j = [] := by
  rw [tailEnts, List.drop_eq_nil_of_le (by simp [List.length_take]; omega)]
  rfl

theorem headD_append_left (a b : List (Nat × Nat)) (d : Nat × Nat)
    (h : a ≠ []) : (a ++ b).headD d = a.headD d := by
  cases a with
  | nil => exact absurd rfl h
  | cons x tl => simp

theorem getLastD_append_right (a b : List (Nat × Nat)) (d : Nat × Nat)
    (h : b ≠ []) : (a ++ b).getLastD d = b.getLastD d := by
  rw [List.getLastD_eq_getLast?, List.getLastD_eq_getLast?,
    List.getLast?_append_of_ne_nil a h]

theorem headD_mem (l : List (Nat × Nat)) (d : Nat × Nat) (h : l ≠ []) :
    l.headD d ∈ l := by
  cases l with
  | nil => exact absurd rfl h
  | cons x tl => simp

theorem getLastD_mem (l : List (Nat × Nat)) (d : Nat × Nat) (h : l ≠ []) :
    l.getLastD d ∈ l := by
  rw [getLastD_eq_getD, List.getD_eq_getElem l d
    (by cases l with
        | nil => exact absurd rfl h
        | cons x tl => simp)]
  exact List.getElem_mem _

/-- A well-formed subtree with a positive stored count has entries. -/
theorem entries_ne_nil : ∀ (d : Nat) (p : Page) (count : Nat),
    wf d p count = true → 1 ≤ count → entriesAt d p count ≠ [] := by
  intro d
  induction d with
  | zero =>
    intro p count hwf hc
    match p with
    | Page.leaf keys vals =>
      obtain ⟨hk, hv, _⟩ := (wf_leaf_iff keys vals count).mp hwf
      intro hnil
      have := entries_leaf_length keys vals count hk hv
      rw [hnil] at this
      simp at this
      omega
    | Page.node keys subs => simp [wf] at hwf
  | succ d ih =>
    intro p count hwf hc
    match p with
    | Page.leaf keys vals => simp [wf] at hwf
    | Page.node keys subs =>
      obtain ⟨hk, hs, hwfc, hcnt, hfence, hord, hrun⟩ :=
        (wf_node_iff d keys subs count).mp hwf
      rw [entries_node_eq_tail, tailEnts_step d subs count 0 hs (by omega)]
      have h0 : childEnt d subs 0 ≠ [] :=
        ih _ _ (hwfc 0 (by omega)) (hcnt 0 (by omega))
      intro hnil
      exact h0 (List.append_eq_nil.mp hnil).1

/-- In a well-formed subtree every entry key lies between the subtree's
first and last entry keys. -/
theorem entries_bounds : ∀ (d : Nat) (p : Page) (count : Nat),
    wf d p count = true →
    ∀ e ∈ entriesAt d p count,
      ((entriesAt d p count).headD (0, 0)).1 ≤ e.1 ∧
      e.1 ≤ ((entriesAt d p count).getLastD (0, 0)).1 := by
  intro d
  induction d with
  | zero =>
    intro p count hwf e he
    match p with
    | Page.leaf keys vals =>
      obtain ⟨hk, hv, hadj⟩ := (wf_leaf_iff keys vals count).mp hwf
      have hmono : ∀ i j, i ≤ j → j < count → keys.getD i 0 ≤ keys.getD j 0 :=
        fun i j hij hj => mono_of_adj (fun j => keys.getD j 0) count hadj i j hij hj
      obtain ⟨i, hi, hie⟩ := List.mem_iff_getElem.mp he
      have hlen : (entriesAt 0 (Page.leaf keys vals) count).length = count :=
        entries_leaf_length keys vals count hk hv
      have hcpos : 1 ≤ count := by omega
      have hie2 : e = (entriesAt 0 (Page.leaf keys vals) count).getD i (0, 0) := by
        rw [List.getD_eq_getElem _ _ hi, hie]
      rw [entries_leaf_getD keys vals count i hk hv (by omega)] at hie2
      have hne : entriesAt 0 (Page.leaf keys vals) count ≠ [] := by
        intro hnil; rw [hnil] at hlen; simp at hlen; omega
      constructor
      · rw [headD_eq_getD, entries_leaf_getD keys vals count 0 hk hv (by omega),
          hie2]
        exact hmono 0 i (by omega) (by omega)
      · rw [getLastD_eq_getD, hlen,
          entries_leaf_getD keys vals count (count - 1) hk hv (by omega), hie2]
        exact hmono i (count - 1) (by omega) (by omega)
    | Page.node keys subs => simp [wf] at hwf
  | succ d ih =>
    intro p count hwf e he
    match p with
    | Page.leaf keys vals => simp [wf] at hwf
    | Page.node keys subs =>
      obtain ⟨hk, hs, hwfc, hcnt, hfence, hord, hrun⟩ :=
        (wf_node_iff d keys subs count).mp hwf
      -- locate the child that contains e
      rw [entries_node_eq_tail, tailEnts, List.drop_zero] at he
      obtain ⟨a, ha, hea⟩ := List.mem_flatten.mp he
      obtain ⟨c, hc, hca⟩ := List.mem_map.mp ha
      obtain ⟨j, hjlen, hje⟩ := List.mem_iff_getElem.mp hc
      have hjc : j < count := by
        have := hjlen; simp [List.length_take] at this; omega
      have hcj : c = subs.getD j (default, 0) := by
        have h1 : (subs.take count)[j]? = subs[j]? := List.getElem?_take_of_lt hjc
        rw [List.getElem?_eq_getElem hjlen] at h1
        rw [List.getD_eq_getElem?_getD, ← h1, hje]
        simp
      have hej : e ∈ childEnt d subs j := by
        rw [childEnt, ← hcj, hca]
        exact hea
      -- child-level facts
      have hwfj := hwfc j hjc
      have hcntj := hcnt j hjc
      have hnej : childEnt d subs j ≠ [] := entries_ne_nil d _ _ hwfj hcntj
      have hbnd := ih _ _ hwfj e hej
      -- fence keys are adjacent-sorted
      have hfadj : ∀ jj, jj < count - 1 → keys.getD jj 0 ≤ keys.getD (jj + 1) 0 := by
        intro jj hjj
        have hnejj : childEnt d subs jj ≠ [] :=
          entries_ne_nil d _ _ (hwfc jj (by omega)) (hcnt jj (by omega))
        have hmem := headD_mem _ (0, 0) hnejj
        have := hord jj hjj _ hmem
        rw [hfence jj (by omega)]
        exact this
      have hfmono := mono_of_adj (fun jj => keys.getD jj 0) count hfadj
      have hcpos : 1 ≤ count := by omega
      -- head of the whole subtree = fence 0
      have hhead : ((entriesAt (d + 1) (Page.node keys subs) count).headD (0, 0)).1 =
          keys.getD 0 0 := by
        rw [entries_node_eq_tail, tailEnts_step d subs count 0 hs (by omega),
          headD_append_left _ _ _ (show childEnt d subs 0 ≠ [] from
            entries_ne_nil d _ _ (hwfc 0 (by omega)) (hcnt 0 (by omega)))]
        exact (hfence 0 (by omega)).symm
      -- last of the whole subtree = last of the last child
      have hlast : (entriesAt (d + 1) (Page.node keys subs) count).getLastD (0, 0) =
          (childEnt d subs (count - 1)).getLastD (0, 0) := by
        rw [entries_node_eq_tail]
        have hstep : ∀ n jj, jj + n + 1 = count →
            (tailEnts d subs count jj).getLastD (0, 0) =
              (childEnt d subs (count - 1)).getLastD (0, 0) ∧
            tailEnts d subs count jj ≠ [] := by
          intro n
          induction n with
          | zero =>
            intro jj hjj
            rw [tailEnts_step d subs count jj hs (by omega),
              tailEnts_end d subs count (jj + 1) (by omega), List.append_nil]
            have : jj = count - 1 := by omega
            rw [this]
            exact ⟨rfl, entries_ne_nil d _ _ (hwfc _ (by omega)) (hcnt _ (by omega))⟩
          | succ n ihn =>
            intro jj hjj
            obtain ⟨ih1, ih2⟩ := ihn (jj + 1) (by omega)
            rw [tailEnts_step d subs count jj hs (by omega),
              getLastD_append_right _ _ _ ih2]
            refine ⟨ih1, ?_⟩
            intro hnil
            exact ih2 (List.append_eq_nil.mp hnil).2
        exact (hstep (count - 1) 0 (by omega)).1
      constructor
      · rw [hhead]
        calc keys.getD 0 0 ≤ keys.getD j 0 := hfmono 0 j (by omega) hjc
          _ = ((childEnt d subs j).headD (0, 0)).1 := hfence j hjc
          _ ≤ e.1 := hbnd.1
      · rw [hlast]
        rcases Nat.lt_or_ge j (count - 1) with hj1 | hj1
        · have hle1 : e.1 ≤ keys.getD (j + 1) 0 := hord j hj1 e hej
          have hle2 : keys.getD (j + 1) 0 ≤ keys.getD (count - 1) 0 :=
            hfmono (j + 1) (count - 1) (by omega) (by omega)
          have hne1 : childEnt d subs (count - 1) ≠ [] :=
            entries_ne_nil d _ _ (hwfc _ (by omega)) (hcnt _ (by omega))
          have hle3 : keys.getD (count - 1) 0 ≤
              ((childEnt d subs (count - 1)).getLastD (0, 0)).1 := by
            rw [hfence (count - 1) (by omega)]
            exact (ih _ _ (hwfc _ (by omega)) _ (getLastD_mem _ (0, 0) hne1)).1
          omega
        · have : j = count - 1 := by omega
          rw [← this]
          exact hbnd.2

/-- Fence keys of a well-formed interior page are adjacent-sorted. -/
theorem fence_adj (d : Nat) (keys : List Nat) (subs : List (Page × Nat))
    (count : Nat) (hwf : wf (d + 1) (Page.node keys subs) count = true) :
    ∀ jj, jj < count - 1 → keys.getD jj 0 ≤ keys.getD (jj + 1) 0 := by
  obtain ⟨hk, hs, hwfc, hcnt, hfence, hord, hrun⟩ :=
    (wf_node_iff d keys subs count).mp hwf
  intro jj hjj
  have hnejj : childEnt d subs jj ≠ [] :=
    entries_ne_nil d _ _ (hwfc jj (by omega)) (hcnt jj (by omega))
  have hmem := headD_mem _ (0, 0) hnejj
  have := hord jj hjj _ hmem
  rw [hfence jj (by omega)]
  exact this

/-- The first entry key of a well-formed interior subtree is its fence
key 0. -/
theorem entries_node_headD (d : Nat) (keys : List Nat)
    (subs : List (Page × Nat)) (count : Nat)
    (hwf : wf (d + 1) (Page.node keys subs) count = true) (hc : 1 ≤ count) :
    ((entriesAt (d + 1) (Page.node keys subs) count).headD (0, 0)).1 =
      keys.getD 0 0 := by
  obtain ⟨hk, hs, hwfc, hcnt, hfence, hord, hrun⟩ :=
    (wf_node_iff d keys subs count).mp hwf
  rw [entries_node_eq_tail, tailEnts_step d subs count 0 hs (by omega),
    headD_append_left _ _ _ (show childEnt d subs 0 ≠ [] from
      entries_ne_nil d _ _ (hwfc 0 (by omega)) (hcnt 0 (by omega)))]
  exact (hfence 0 (by omega)).symm

/-- The tail of children from any valid start is nonempty and its last
entry is the last entry of the last child. -/
theorem tailEnts_lastD (d : Nat) (subs : List (Page × Nat)) (count : Nat)
    (hs : subs.length = count)
    (hwfc : ∀ j, j < count → wf d (subs.getD j (default, 0)).1
      (subs.getD j (default, 0)).2 = true)
    (hcnt : ∀ j, j < count → 1 ≤ (subs.getD j (default, 0)).2) :
    ∀ n jj, jj + n + 1 = count →
      (tailEnts d subs count jj).getLastD (0, 0) =
        (childEnt d subs (count - 1)).getLastD (0, 0) ∧
      tailEnts d subs count jj ≠ [] := by
  intro n
  induction n with
  | zero =>
    intro jj hjj
    rw [tailEnts_step d subs count jj hs (by omega),
      tailEnts_end d subs count (jj + 1) (by omega), List.append_nil]
    have : jj = count - 1 := by omega
    rw [this]
    exact ⟨rfl, entries_ne_nil d _ _ (hwfc _ (by omega)) (hcnt _ (by omega))⟩
  | succ n ihn =>
    intro jj hjj
    obtain ⟨ih1, ih2⟩ := ihn (jj + 1) (by omega)
    rw [tailEnts_step d subs count jj hs (by omega),
      getLastD_append_right _ _ _ ih2]
    refine ⟨ih1, ?_⟩
    intro hnil
    exact ih2 (List.append_eq_nil.mp hnil).2

/-- The last entry of a well-formed interior subtree is the last entry of
its last child. -/
theorem entries_node_lastD (d : Nat) (keys : List Nat)
    (subs : List (Page × Nat)) (count : Nat)
    (hwf : wf (d + 1) (Page.node keys subs) count = true) (hc : 1 ≤ count) :
    (entriesAt (d + 1) (Page.node keys subs) count).getLastD (0, 0) =
      (childEnt d subs (count - 1)).getLastD (0, 0) := by
  obtain ⟨hk, hs, hwfc, hcnt, hfence, hord, hrun⟩ :=
    (wf_node_iff d keys subs count).mp hwf
  rw [entries_node_eq_tail]
  exact (tailEnts_lastD d subs count hs hwfc hcnt (count - 1) 0 (by omega)).1

/-- The source binary search never returns anything below `-1`. -/
theorem binsearch_loop_ge (value : Nat) (ary : List Nat) :
    ∀ fuel mn mx, -1 ≤ binsearch_loop value ary fuel mn mx := by
  intro fuel
  induction fuel with
  | zero => intro mn mx; rw [binsearch_loop]
  | succ fuel ih =>
    intro mn mx
    rw [binsearch_loop]
    by_cases h1 : ary.getD ((mn + mx) / 2) 0 > value
    · rw [if_pos h1]
      by_cases h2 : (mn + mx) / 2 = 0
      · rw [if_pos h2]
      · rw [if_neg h2]
        by_cases h3 : (mn + mx) / 2 = mn
        · rw [if_pos h3]; omega
        · rw [if_neg h3]; exact ih _ _
    · rw [if_neg h1]
      by_cases h2 : ary.getD ((mn + mx) / 2) 0 = value
      · rw [if_pos h2]; omega
      · rw [if_neg h2]
        by_cases h3 : (mn + mx) / 2 = mx
        · rw [if_pos h3]; omega
        · rw [if_neg h3]; exact ih _ _

theorem binsearch_index_ge (value : Nat) (ary : List Nat) (count : Nat) :
    -1 ≤ binsearch_index value ary count := by
  rw [binsearch_index]
  by_cases h : count = 0
  · rw [if_pos h]
  · rw [if_neg h]; exact binsearch_loop_ge value ary count 0 (count - 1)

theorem occs_eq_nil_of_forall (k : Nat) (l : List (Nat × Nat))
    (h : ∀ e ∈ l, e.1 ≠ k) : occs k l = [] := by
  have h2 : l.filter (fun e => decide (e.1 = k)) = [] :=
    List.filter_eq_nil_iff.mpr (by intro a ha; simpa using h a ha)
  rw [occs, h2]
  rfl

theorem occs_ne_nil_of_mem (k : Nat) (l : List (Nat × Nat)) (e : Nat × Nat)
    (he : e ∈ l) (hk : e.1 = k) : occs k l ≠ [] := by
  intro h
  have h2 : e ∈ l.filter (fun e => decide (e.1 = k)) :=
    List.mem_filter.mpr ⟨he, by simpa using hk⟩
  rw [occs] at h
  rw [List.map_eq_nil_iff.mp h] at h2
  exact absurd h2 (List.not_mem_nil e)

theorem occs_tail_nil (k : Nat) (d : Nat) (subs : List (Page × Nat))
    (count : Nat) (hs : subs.length = count) :
    ∀ n j, count ≤ j + n →
    (∀ l, j ≤ l → l < count → occs k (childEnt d subs l) = []) →
    occs k (tailEnts d subs count j) = [] := by
  intro n
  induction n with
  | zero =>
    intro j h1 h2
    rw [tailEnts_end d subs count j (by omega)]
    rfl
  | succ n ihn =>
    intro j h1 h2
    by_cases hj : j < count
    · rw [tailEnts_step d subs count j hs hj, occs_append,
        h2 j (Nat.le_refl _) hj,
        ihn (j + 1) (by omega) (fun l hl1 hl2 => h2 l (by omega) hl2)]
      rfl
    · rw [tailEnts_end d subs count j (by omega)]
      rfl

theorem occs_tail_skip (k : Nat) (d : Nat) (subs : List (Page × Nat))
    (count : Nat) (hs : subs.length = count) :
    ∀ n j0, j0 + n ≤ count →
    (∀ l, j0 ≤ l → l < j0 + n → occs k (childEnt d subs l) = []) →
    occs k (tailEnts d subs count j0) =
      occs k (tailEnts d subs count (j0 + n)) := by
  intro n
  induction n with
  | zero => intro j0 _ _; rfl
  | succ n ihn =>
    intro j0 h1 h2
    rw [tailEnts_step d subs count j0 hs (by omega), occs_append,
      h2 j0 (Nat.le_refl _) (by omega), List.nil_append]
    have := ihn (j0 + 1) (by omega) (fun l hl1 hl2 => h2 l (by omega) (by omega))
    rw [this]
    have heq : j0 + 1 + n = j0 + (n + 1) := by omega
    rw [heq]

theorem loop_step_some (rec2 : Int → Page → Nat → Option Nat × Int)
    (idx : Nat) (p : Page) (count rem j : Nat) (sub : Int) (v : Nat) (s2 : Int)
    (h : rec2 sub (Page.subAt p j).1 (Page.subAt p j).2 = (some v, s2))
    (hcond : j < count ∧ (Page.keys p).getD j 0 = idx) :
    find_loop rec2 idx p count (rem + 1) j sub = (some v, s2) := by
  rw [find_loop, if_pos hcond]
  simp [h]

theorem loop_step_none_neg (rec2 : Int → Page → Nat → Option Nat × Int)
    (idx : Nat) (p : Page) (count rem j : Nat) (sub : Int) (s2 : Int)
    (h : rec2 sub (Page.subAt p j).1 (Page.subAt p j).2 = (none, s2))
    (hs2 : s2 < 0)
    (hcond : j < count ∧ (Page.keys p).getD j 0 = idx) :
    find_loop rec2 idx p count (rem + 1) j sub = (none, s2) := by
  rw [find_loop, if_pos hcond]
  simp [h, hs2]

theorem loop_step_none_cont (rec2 : Int → Page → Nat → Option Nat × Int)
    (idx : Nat) (p : Page) (count rem j : Nat) (sub : Int) (s2 : Int)
    (h : rec2 sub (Page.subAt p j).1 (Page.subAt p j).2 = (none, s2))
    (hs2 : ¬ s2 < 0)
    (hcond : j < count ∧ (Page.keys p).getD j 0 = idx) :
    find_loop rec2 idx p count (rem + 1) j sub =
      find_loop rec2 idx p count rem (j + 1) s2 := by
  rw [find_loop, if_pos hcond]
  simp [h, hs2]

theorem loop_step_exit (rec2 : Int → Page → Nat → Option Nat × Int)
    (idx : Nat) (p : Page) (count rem j : Nat) (sub : Int)
    (hcond : ¬ (j < count ∧ (Page.keys p).getD j 0 = idx)) :
    find_loop rec2 idx p count (rem + 1) j sub = (none, sub) := by
  rw [find_loop, if_neg hcond]

/-- Specification of the equal-fence-key loop of `find_rec`'s interior
branch, given the specification of `find_rec` one level down. -/
theorem find_loop_spec (k d : Nat) (keys : List Nat)
    (subs : List (Page × Nat)) (count : Nat)
    (hwf : wf (d + 1) (Page.node keys subs) count = true)
    (ihrec : ∀ (p : Page) (ccount : Nat) (s : Int),
      wf d p ccount = true → 0 ≤ s →
      (find_rec k d s p ccount).1 = (occs k (entriesAt d p ccount))[s.toNat]? ∧
      ((entriesAt d p ccount = [] ∨
        k < ((entriesAt d p ccount).headD (0, 0)).1 ∨
        ((entriesAt d p ccount).getLastD (0, 0)).1 < k) →
        (find_rec k d s p ccount).2 = s) ∧
      (((entriesAt d p ccount).getLastD (0, 0)).1 = k →
        entriesAt d p ccount ≠ [] →
        (occs k (entriesAt d p ccount)).length ≤ s.toNat →
        (find_rec k d s p ccount).2 = s - (occs k (entriesAt d p ccount)).length ∧
        0 ≤ (find_rec k d s p ccount).2)) :
    ∀ rem j s, 0 ≤ s → j + rem = count →
    (∀ l, j ≤ l → l < count → keys.getD l 0 ≠ k →
      occs k (childEnt d subs l) = []) →
    (j < count → k ≤ keys.getD j 0) →
    (find_loop (fun s c ccount => find_rec k d s c ccount) k
        (Page.node keys subs) count rem j s).1 =
      (occs k (tailEnts d subs count j))[s.toNat]? ∧
    (((childEnt d subs (count - 1)).getLastD (0, 0)).1 = k →
      (j < count → keys.getD j 0 = k) →
      (occs k (tailEnts d subs count j)).length ≤ s.toNat →
      (find_loop (fun s c ccount => find_rec k d s c ccount) k
          (Page.node keys subs) count rem j s).2 =
        s - (occs k (tailEnts d subs count j)).length ∧
      0 ≤ (find_loop (fun s c ccount => find_rec k d s c ccount) k
          (Page.node keys subs) count rem j s).2) := by
  obtain ⟨hk2, hs2, hwfc, hcnt, hfence, hord, hrunE⟩ :=
    (wf_node_iff d keys subs count).mp hwf
  have hfenceC : ∀ jj, jj < count →
      keys.getD jj 0 = ((childEnt d subs jj).headD (0, 0)).1 := hfence
  have hordC : ∀ jj, jj < count - 1 →
      ∀ e ∈ childEnt d subs jj, e.1 ≤ keys.getD (jj + 1) 0 := hord
  have hfadj := fence_adj d keys subs count hwf
  have hfmono : ∀ i j, i ≤ j → j < count → keys.getD i 0 ≤ keys.getD j 0 :=
    fun i j hij hj => mono_of_adj (fun jj => keys.getD jj 0) count hfadj i j hij hj
  intro rem
  induction rem with
  | zero =>
    intro j s hs0 hjrem hocc0 hfge
    -- the loop guard fails: j = count
    have hj : j = count := by omega
    rw [find_loop, hj]
    rw [tailEnts_end d subs count count (Nat.le_refl _)]
    refine ⟨by simp [occs], ?_⟩
    intro _ _ _
    constructor
    · show s = s - ((occs k ([] : List (Nat × Nat))).length : Int)
      simp [occs]
    · exact hs0
  | succ rem ihrem =>
    intro j s hs0 hjrem hocc0 hfge
    have hjc : j < count := by omega
    by_cases hfj : keys.getD j 0 = k
    · have hcond : j < count ∧
          (Page.keys (Page.node keys subs)).getD j 0 = k := ⟨hjc, hfj⟩
      -- the child this iteration descends into
      have hwfj := hwfc j hjc
      have hcntj := hcnt j hjc
      have hnej : childEnt d subs j ≠ [] := entries_ne_nil d _ _ hwfj hcntj
      have hheadj : ((childEnt d subs j).headD (0, 0)).1 = k := by
        rw [← hfenceC j hjc, hfj]
      obtain ⟨hA0, hB0, hC0⟩ := ihrec (subs.getD j (default, 0)).1
        (subs.getD j (default, 0)).2 s hwfj hs0
      have hA : (find_rec k d s (subs.getD j (default, 0)).1
          (subs.getD j (default, 0)).2).1 =
          (occs k (childEnt d subs j))[s.toNat]? := hA0
      have hC : ((childEnt d subs j).getLastD (0, 0)).1 = k →
          childEnt d subs j ≠ [] →
          (occs k (childEnt d subs j)).length ≤ s.toNat →
          (find_rec k d s (subs.getD j (default, 0)).1
            (subs.getD j (default, 0)).2).2 =
            s - (occs k (childEnt d subs j)).length ∧
          0 ≤ (find_rec k d s (subs.getD j (default, 0)).1
            (subs.getD j (default, 0)).2).2 := hC0
      have hdec : tailEnts d subs count j =
          childEnt d subs j ++ tailEnts d subs count (j + 1) :=
        tailEnts_step d subs count j hs2 hjc
      rcases hfr : find_rec k d s (subs.getD j (default, 0)).1
        (subs.getD j (default, 0)).2 with ⟨fst_c, snd_c⟩
      rw [hfr] at hA hC
      simp only [] at hA hC
      by_cases hsm : s.toNat < (occs k (childEnt d subs j)).length
      · -- the occurrence lies inside this child
        have hsome : fst_c = some ((occs k (childEnt d subs j))[s.toNat]) := by
          rw [hA, List.getElem?_eq_getElem hsm]
        have hstep := loop_step_some (fun s c ccount => find_rec k d s c ccount)
          k (Page.node keys subs) count rem j s
          ((occs k (childEnt d subs j))[s.toNat]) snd_c
          (by show find_rec k d s (subs.getD j (default, 0)).1
                (subs.getD j (default, 0)).2 = _
              rw [hfr, hsome]) hcond
        rw [hstep]
        refine ⟨?_, ?_⟩
        · rw [hdec, occs_append, List.getElem?_append, if_pos hsm,
            List.getElem?_eq_getElem hsm]
        · intro _ _ hlen
          exfalso
          rw [hdec, occs_append, List.length_append] at hlen
          omega
      · -- this child's occurrences are exhausted
        have hnone : fst_c = none := by
          rw [hA, List.getElem?_eq_none_iff.mpr (by omega)]
        by_cases hlastj : ((childEnt d subs j).getLastD (0, 0)).1 = k
        · -- the run reaches this child's right edge
          obtain ⟨hsnd, hsnd0⟩ := hC hlastj hnej (by omega)
          have hstep := loop_step_none_cont
            (fun s c ccount => find_rec k d s c ccount)
            k (Page.node keys subs) count rem j s snd_c
            (by show find_rec k d s (subs.getD j (default, 0)).1
                  (subs.getD j (default, 0)).2 = _
                rw [hfr, hnone]) (by omega) hcond
          rw [hstep]
          have hnext : j + 1 < count → k ≤ keys.getD (j + 1) 0 := by
            intro hj1
            rw [← hfj]
            exact hfmono j (j + 1) (by omega) hj1
          obtain ⟨ihA, ihB⟩ := ihrem (j + 1) snd_c hsnd0 (by omega)
            (fun l hl1 hl2 hl3 => hocc0 l (by omega) hl2 hl3) hnext
          refine ⟨?_, ?_⟩
          · rw [ihA, hdec, occs_append, List.getElem?_append,
              if_neg (by omega), hsnd]
            have heq2 : (s - ((occs k (childEnt d subs j)).length : Int)).toNat =
                s.toNat - (occs k (childEnt d subs j)).length := by omega
            rw [heq2]
          · intro hlastall _ hlen
            rw [hdec, occs_append, List.length_append] at hlen
            have hfj1 : j + 1 < count → keys.getD (j + 1) 0 = k := by
              intro hj1
              have h1 : k ≤ keys.getD (j + 1) 0 := hnext hj1
              have hnel : childEnt d subs (count - 1) ≠ [] :=
                entries_ne_nil d _ _ (hwfc _ (by omega)) (hcnt _ (by omega))
              have hm1 := getLastD_mem (childEnt d subs (count - 1)) (0, 0) hnel
              have hb1 := (entries_bounds d _ _ (hwfc (count - 1) (by omega))) _ hm1
              have hc2 : keys.getD (j + 1) 0 ≤ keys.getD (count - 1) 0 :=
                hfmono (j + 1) (count - 1) (by omega) (by omega)
              have hc3 : keys.getD (count - 1) 0 ≤
                  ((childEnt d subs (count - 1)).getLastD (0, 0)).1 := by
                rw [hfenceC (count - 1) (by omega)]
                exact hb1.1
              omega
            obtain ⟨ih1, ih2⟩ := ihB hlastall hfj1 (by omega)
            refine ⟨?_, ih2⟩
            rw [ih1, hsnd, hdec, occs_append, List.length_append]
            push_cast
            omega
        · -- the run ends inside this child: no later child can hold k
          have hknot : ∀ l, j + 1 ≤ l → l < count →
              occs k (childEnt d subs l) = [] := by
            intro l hl1 hl2
            apply hocc0 l (by omega) hl2
            intro hfl
            have hj1 : j + 1 < count := by omega
            have hfk1 : k ≤ keys.getD (j + 1) 0 := by
              rw [← hfj]
              exact hfmono j (j + 1) (by omega) hj1
            have hfk2 : keys.getD (j + 1) 0 ≤ keys.getD l 0 :=
              hfmono (j + 1) l hl1 hl2
            rw [hfl] at hfk2
            -- then child j's last key is squeezed to k, contradiction
            have hmem := getLastD_mem (childEnt d subs j) (0, 0) hnej
            have hlb := (entries_bounds d _ _ hwfj) _ hmem
            have hub : ((childEnt d subs j).getLastD (0, 0)).1 ≤
                keys.getD (j + 1) 0 := hordC j (by omega) _ hmem
            apply hlastj
            have hhb : ((childEnt d subs j).headD (0, 0)).1 ≤
                ((childEnt d subs j).getLastD (0, 0)).1 := hlb.1
            omega
          have htail1 : occs k (tailEnts d subs count (j + 1)) = [] :=
            occs_tail_nil k d subs count hs2 (count - (j + 1)) (j + 1)
              (by omega) (fun l hl1 hl2 => hknot l hl1 hl2)
          have hAgoal : (occs k (tailEnts d subs count j))[s.toNat]? = none := by
            rw [hdec, occs_append, htail1, List.append_nil,
              List.getElem?_eq_none_iff.mpr (by omega)]
          have hBvac : ¬ ((childEnt d subs (count - 1)).getLastD (0, 0)).1 = k := by
            intro hlastall
            rcases Nat.lt_or_ge j (count - 1) with hj2 | hj2
            · have hnel : childEnt d subs (count - 1) ≠ [] :=
                entries_ne_nil d _ _ (hwfc _ (by omega)) (hcnt _ (by omega))
              have hm1 := getLastD_mem (childEnt d subs (count - 1)) (0, 0) hnel
              exact occs_ne_nil_of_mem k _ _ hm1 hlastall
                (hknot (count - 1) (by omega) (by omega))
            · have hje : j = count - 1 := by omega
              rw [← hje] at hlastall
              exact hlastj hlastall
          by_cases hsc : snd_c < 0
          · have hstep := loop_step_none_neg
              (fun s c ccount => find_rec k d s c ccount)
              k (Page.node keys subs) count rem j s snd_c
              (by show find_rec k d s (subs.getD j (default, 0)).1
                    (subs.getD j (default, 0)).2 = _
                  rw [hfr, hnone]) hsc hcond
            rw [hstep]
            exact ⟨hAgoal.symm, fun hlastall => absurd hlastall hBvac⟩
          · have hstep := loop_step_none_cont
              (fun s c ccount => find_rec k d s c ccount)
              k (Page.node keys subs) count rem j s snd_c
              (by show find_rec k d s (subs.getD j (default, 0)).1
                    (subs.getD j (default, 0)).2 = _
                  rw [hfr, hnone]) hsc hcond
            rw [hstep]
            have hnext : j + 1 < count → k ≤ keys.getD (j + 1) 0 := by
              intro hj1
              rw [← hfj]
              exact hfmono j (j + 1) (by omega) hj1
            obtain ⟨ihA, _⟩ := ihrem (j + 1) snd_c (by omega) (by omega)
              (fun l hl1 hl2 hl3 => hocc0 l (by omega) hl2 hl3) hnext
            refine ⟨?_, fun hlastall => absurd hlastall hBvac⟩
            rw [ihA, htail1, hAgoal]
            simp
    · have hcond : ¬ (j < count ∧
          (Page.keys (Page.node keys subs)).getD j 0 = k) :=
        fun hand => hfj hand.2
      rw [loop_step_exit (fun s c ccount => find_rec k d s c ccount)
        k (Page.node keys subs) count rem j s hcond]
      -- the loop guard fails on the fence key: no later child holds k
      have htail : occs k (tailEnts d subs count j) = [] := by
        apply occs_tail_nil k d subs count hs2 (count - j) j (by omega)
        intro l hl1 hl2
        apply hocc0 l hl1 hl2
        intro hfl
        have h1 : k ≤ keys.getD j 0 := hfge hjc
        have h2 : keys.getD j 0 ≤ keys.getD l 0 := hfmono j l hl1 hl2
        rw [hfl] at h2
        have : keys.getD j 0 = k := by omega
        exact hfj this
      rw [htail]
      refine ⟨by simp, ?_⟩
      intro _ hfk _
      exact absurd (hfk hjc) hfj

theorem find_rec_spec (k : Nat) :
    ∀ (d : Nat) (p : Page) (count : Nat) (s : Int),
    wf d p count = true → 0 ≤ s →
    (find_rec k d s p count).1 = (occs k (entriesAt d p count))[s.toNat]? ∧
    ((entriesAt d p count = [] ∨
      k < ((entriesAt d p count).headD (0, 0)).1 ∨
      ((entriesAt d p count).getLastD (0, 0)).1 < k) →
      (find_rec k d s p count).2 = s) ∧
    (((entriesAt d p count).getLastD (0, 0)).1 = k →
      entriesAt d p count ≠ [] →
      (occs k (entriesAt d p count)).length ≤ s.toNat →
      (find_rec k d s p count).2 = s - (occs k (entriesAt d p count)).length ∧
      0 ≤ (find_rec k d s p count).2) := by
  intro d
  induction d with
  | zero =>
    intro p count s hwf hs0
    match p with
    | Page.node keys subs => simp [wf] at hwf
    | Page.leaf keys vals =>
      obtain ⟨hk, hv, hadj⟩ := (wf_leaf_iff keys vals count).mp hwf
      have hmono : ∀ i j, i ≤ j → j < count → keys.getD i 0 ≤ keys.getD j 0 :=
        fun i j hij hj => mono_of_adj (fun j => keys.getD j 0) count hadj i j hij hj
      have hElen := entries_leaf_length keys vals count hk hv
      have hEget := fun j hj => entries_leaf_getD keys vals count j hk hv hj
      have hbs := claim_C7 k keys count (fun j hj i hij => hmono i j hij hj)
      have hge := binsearch_index_ge k keys count
      simp only [find_rec, Page.keys, Page.valAt]
      by_cases hneg : binsearch_index k keys count < 0
      · rw [if_pos hneg]
        have hm1 : binsearch_index k keys count = -1 := by omega
        have hcases := hbs.1.mp hm1
        have hocc : occs k (entriesAt 0 (Page.leaf keys vals) count) = [] := by
          apply occs_nil_of_no_match
          intro j hj
          rw [hElen] at hj
          rw [hEget j hj]
          rcases hcases with hc0 | hlt
          · omega
          · have := hmono 0 j (by omega) hj
            simp only []
            omega
        rw [hocc]
        refine ⟨by simp, fun _ => rfl, ?_⟩
        intro hlastk hne _
        exfalso
        have hcpos : 1 ≤ count := by
          by_contra hc
          have : count = 0 := by omega
          subst this
          apply hne
          have := hElen
          exact List.length_eq_zero.mp this
        rcases hcases with hc0 | hlt
        · omega
        · rw [getLastD_eq_getD, hElen, hEget (count - 1) (by omega)] at hlastk
          have := hmono 0 (count - 1) (by omega) (by omega)
          omega
      · rw [if_neg hneg]
        have hge0 : 0 ≤ binsearch_index k keys count := by omega
        obtain ⟨hi0lt, hi0le⟩ := hbs.2.1 hge0
        -- i0 is the binsearch result as a Nat
        set i0 := (binsearch_index k keys count).toNat with hi0def
        have hcpos : 1 ≤ count := by omega
        by_cases hexact : keys.getD i0 0 = k
        · rw [if_pos hexact]
          obtain ⟨_, _, hfirst⟩ := hbs.2.2.1 i0 hi0lt hexact
          -- end of the run of k starting at i0
          have hex : ∃ j, count ≤ j ∨ (i0 ≤ j ∧ keys.getD j 0 ≠ k) :=
            ⟨count, Or.inl (Nat.le_refl _)⟩
          set b := Nat.find hex with hbdef
          have hpredb := Nat.find_spec hex
          have hminb := fun j (hj : j < b) => Nat.find_min hex hj
          have hble : b ≤ count := Nat.find_min' hex (Or.inl (Nat.le_refl _))
          have hbge : i0 ≤ b := by
            by_contra hlt2
            rcases hpredb with h | h
            · omega
            · omega
          have hrun : ∀ j, i0 ≤ j → j < b → keys.getD j 0 = k := by
            intro j h1 h2
            have := hminb j h2
            push_neg at this
            exact this.2 h1
          have hbend : b < count → keys.getD b 0 ≠ k := by
            intro hbc
            rcases hpredb with h | h
            · omega
            · exact h.2
          set m := b - i0 with hmdef
          have hwin : ∀ j, j < count →
              (((entriesAt 0 (Page.leaf keys vals) count).getD j (0, 0)).1 = k ↔
                (i0 ≤ j ∧ j < i0 + m)) := by
            intro j hj
            rw [hEget j hj]
            constructor
            · intro hjk
              have hji0 : i0 ≤ j := by
                by_contra hlt2
                exact hfirst j (by omega) hjk
              refine ⟨hji0, ?_⟩
              by_contra hge2
              have hjb : b ≤ j := by omega
              have h1 : keys.getD i0 0 ≤ keys.getD b 0 :=
                hmono i0 b hbge (by omega)
              have h2 : keys.getD b 0 ≤ keys.getD j 0 :=
                hmono b j hjb hj
              have := hbend (by omega)
              omega
            · intro ⟨h1, h2⟩
              exact hrun j h1 (by omega)
          obtain ⟨hocclen, hoccget⟩ := occs_window k
            (entriesAt 0 (Page.leaf keys vals) count) i0 m
            (by intro j hj; rw [hElen] at hj; exact hwin j hj)
            (by rw [hElen]; omega)
          by_cases hin : 0 ≤ s ∧ s < (count : Int) - binsearch_index k keys count
          · rw [if_pos hin]
            have hinN : s.toNat < count - i0 := by omega
            by_cases hs_m : s.toNat < m
            · have hkey2 : keys.getD (i0 + s.toNat) 0 = k :=
                hrun (i0 + s.toNat) (by omega) (by omega)
              rw [if_pos hkey2]
              refine ⟨?_, ?_, ?_⟩
              · rw [hoccget s.toNat, if_pos hs_m, hEget (i0 + s.toNat) (by omega)]
              · intro hdisj
                rcases hdisj with hnil | hlt2 | hlt2
                · exfalso
                  rw [hnil] at hElen
                  simp only [List.length_nil] at hElen
                  omega
                · exfalso
                  rw [headD_eq_getD, hEget 0 (by omega)] at hlt2
                  have := hmono 0 i0 (by omega) hi0lt
                  omega
                · exfalso
                  rw [getLastD_eq_getD, hElen, hEget (count - 1) (by omega)] at hlt2
                  have := hmono i0 (count - 1) (by omega) (by omega)
                  omega
              · intro _ _ hlen2
                rw [hocclen] at hlen2
                omega
            · have hkey2 : ¬ keys.getD (i0 + s.toNat) 0 = k := by
                intro hjk
                have := (hwin (i0 + s.toNat) (by omega)).mp
                  (by rw [hEget (i0 + s.toNat) (by omega)]; exact hjk)
                omega
              rw [if_neg hkey2]
              have hkgt : k < keys.getD (i0 + s.toNat) 0 := by
                have h1 : keys.getD i0 0 ≤ keys.getD (i0 + s.toNat) 0 :=
                  hmono i0 (i0 + s.toNat) (by omega) (by omega)
                omega
              refine ⟨?_, ?_, ?_⟩
              · rw [hoccget s.toNat, if_neg hs_m]
              · intro hdisj
                exfalso
                rcases hdisj with hnil | hlt2 | hlt2
                · rw [hnil] at hElen
                  simp only [List.length_nil] at hElen
                  omega
                · rw [headD_eq_getD, hEget 0 (by omega)] at hlt2
                  have := hmono 0 i0 (by omega) hi0lt
                  omega
                · rw [getLastD_eq_getD, hElen, hEget (count - 1) (by omega)] at hlt2
                  have := hmono (i0 + s.toNat) (count - 1) (by omega) (by omega)
                  omega
              · intro hlastk _ _
                exfalso
                rw [getLastD_eq_getD, hElen, hEget (count - 1) (by omega)] at hlastk
                have := hmono (i0 + s.toNat) (count - 1) (by omega) (by omega)
                omega
          · rw [if_neg hin]
            have houtN : count - i0 ≤ s.toNat := by omega
            have hmle : m ≤ count - i0 := by omega
            refine ⟨?_, ?_, ?_⟩
            · rw [hoccget s.toNat, if_neg (by omega)]
            · intro hdisj
              exfalso
              rcases hdisj with hnil | hlt2 | hlt2
              · rw [hnil] at hElen
                simp only [List.length_nil] at hElen
                omega
              · rw [headD_eq_getD, hEget 0 (by omega)] at hlt2
                have := hmono 0 i0 (by omega) hi0lt
                omega
              · rw [getLastD_eq_getD, hElen, hEget (count - 1) (by omega)] at hlt2
                have := hmono i0 (count - 1) (by omega) (by omega)
                omega
            · intro hlastk _ hlen2
              rw [getLastD_eq_getD, hElen, hEget (count - 1) (by omega)] at hlastk
              have hbcount : b = count := by
                by_contra hbne
                have := hbend (by omega)
                have := (hwin (count - 1) (by omega)).mp
                  (by rw [hEget (count - 1) (by omega)]; exact hlastk)
                omega
              rw [hocclen]
              constructor
              · have : ((count : Int) - binsearch_index k keys count) = (m : Int) := by
                  omega
                rw [this]
              · omega
        · rw [if_neg hexact]
          have hnomatch : ∀ j, j < count → keys.getD j 0 ≠ k := by
            intro j hj hjk
            obtain ⟨_, habs, _⟩ := hbs.2.2.1 j hj hjk
            exact hexact habs
          have hocc : occs k (entriesAt 0 (Page.leaf keys vals) count) = [] := by
            apply occs_nil_of_no_match
            intro j hj
            rw [hElen] at hj
            rw [hEget j hj]
            exact hnomatch j hj
          rw [hocc]
          refine ⟨by simp, fun _ => rfl, ?_⟩
          intro hlastk hne _
          exfalso
          have hcpos2 : 1 ≤ count := by omega
          rw [getLastD_eq_getD, hElen, hEget (count - 1) (by omega)] at hlastk
          exact hnomatch (count - 1) (by omega) hlastk
  | succ d ih =>
    intro p count s hwf hs0
    match p with
    | Page.leaf keys vals => simp [wf] at hwf
    | Page.node keys subs =>
      obtain ⟨hk2, hs2, hwfc, hcnt, hfence, hord, hrunE⟩ :=
        (wf_node_iff d keys subs count).mp hwf
      have hfenceC : ∀ jj, jj < count →
          keys.getD jj 0 = ((childEnt d subs jj).headD (0, 0)).1 := hfence
      have hordC : ∀ jj, jj < count - 1 →
          ∀ e ∈ childEnt d subs jj, e.1 ≤ keys.getD (jj + 1) 0 := hord
      have hrunC : ∀ jj, jj < count - 1 →
          ((childEnt d subs jj).getLastD (0, 0)).1 = keys.getD (jj + 1) 0 →
          ∀ e ∈ childEnt d subs jj, e.1 = keys.getD (jj + 1) 0 := hrunE
      have hfadj := fence_adj d keys subs count hwf
      have hfmono : ∀ i j, i ≤ j → j < count → keys.getD i 0 ≤ keys.getD j 0 :=
        fun i j hij hj =>
          mono_of_adj (fun jj => keys.getD jj 0) count hfadj i j hij hj
      have hbs := claim_C7 k keys count (fun j hj i hij => hfmono i j hij hj)
      have hge := binsearch_index_ge k keys count
      have hE : entriesAt (d + 1) (Page.node keys subs) count =
          tailEnts d subs count 0 := entries_node_eq_tail d keys subs count
      simp only [find_rec, Page.keys, Page.subAt]
      by_cases hneg : binsearch_index k keys count < 0
      · rw [if_pos hneg]
        have hm1 : binsearch_index k keys count = -1 := by omega
        have hcases := hbs.1.mp hm1
        by_cases hc0 : count = 0
        · subst hc0
          rw [hE, tailEnts_end d subs 0 0 (Nat.le_refl _)]
          exact ⟨by simp [occs], fun _ => rfl, fun _ hne _ => absurd rfl hne⟩
        · have hklt : k < keys.getD 0 0 := by
            rcases hcases with h | h
            · exact absurd h hc0
            · exact h
          have hcpos : 1 ≤ count := by omega
          have hhead := entries_node_headD d keys subs count hwf hcpos
          have hocc : occs k (entriesAt (d + 1) (Page.node keys subs) count) = [] := by
            apply occs_eq_nil_of_forall
            intro e he
            have := (entries_bounds (d + 1) _ _ hwf) e he
            intro hek
            rw [hhead] at this
            omega
          rw [hocc]
          refine ⟨by simp, fun _ => rfl, ?_⟩
          intro hlast hne _
          exfalso
          have hm := getLastD_mem _ (0, 0) hne
          have := (entries_bounds (d + 1) _ _ hwf) _ hm
          rw [hhead, hlast] at this
          omega
      · rw [if_neg hneg]
        have hge0 : 0 ≤ binsearch_index k keys count := by omega
        obtain ⟨hi0lt, hi0le⟩ := hbs.2.1 hge0
        set i0 := (binsearch_index k keys count).toNat with hi0def
        have hcpos : 1 ≤ count := by omega
        have hne : entriesAt (d + 1) (Page.node keys subs) count ≠ [] :=
          entries_ne_nil (d + 1) _ _ hwf hcpos
        have hhead := entries_node_headD d keys subs count hwf hcpos
        have hlastE := entries_node_lastD d keys subs count hwf hcpos
        have hkge0 : ¬ k < keys.getD 0 0 := by
          intro hlt2
          have : binsearch_index k keys count = -1 := hbs.1.mpr (Or.inr hlt2)
          omega
        by_cases hexact : keys.getD i0 0 = k
        · rw [if_pos hexact]
          obtain ⟨_, _, hfirst⟩ := hbs.2.2.1 i0 hi0lt hexact
          -- children before i0 hold no occurrence of k
          have hprefix : ∀ l, l < i0 → occs k (childEnt d subs l) = [] := by
            intro l hl
            apply occs_eq_nil_of_forall
            intro e he hek
            have hl1 : l < count - 1 := by omega
            have hub : e.1 ≤ keys.getD (l + 1) 0 := hordC l hl1 e he
            have hfle : keys.getD (l + 1) 0 ≤ keys.getD i0 0 :=
              hfmono (l + 1) i0 (by omega) hi0lt
            have hfeq : keys.getD (l + 1) 0 = k := by omega
            by_cases hli : l + 1 < i0
            · exact hfirst (l + 1) hli hfeq
            · have hli2 : l + 1 = i0 := by omega
              -- duplicate run not torn: child l is entirely k
              have hmem := getLastD_mem (childEnt d subs l) (0, 0)
                (entries_ne_nil d _ _ (hwfc l (by omega)) (hcnt l (by omega)))
              have hlb := (entries_bounds d _ _ (hwfc l (by omega))) _ hmem
              have hub2 : ((childEnt d subs l).getLastD (0, 0)).1 ≤
                  keys.getD (l + 1) 0 := hordC l hl1 _ hmem
              have hlb2 : e.1 ≤ ((childEnt d subs l).getLastD (0, 0)).1 :=
                ((entries_bounds d _ _ (hwfc l (by omega))) e he).2
              have hlast2 : ((childEnt d subs l).getLastD (0, 0)).1 =
                  keys.getD (l + 1) 0 := by omega
              have hall := hrunC l hl1 hlast2
              have hheadl := headD_mem (childEnt d subs l) (0, 0)
                (entries_ne_nil d _ _ (hwfc l (by omega)) (hcnt l (by omega)))
              have := hall _ hheadl
              have hfl : keys.getD l 0 = k := by
                rw [hfenceC l (by omega), this, hfeq]
              exact hfirst l (by omega) hfl
          have hskip : occs k (tailEnts d subs count 0) =
              occs k (tailEnts d subs count i0) := by
            have := occs_tail_skip k d subs count hs2 i0 0 (by omega)
              (fun l hl1 hl2 => hprefix l (by omega))
            simpa using this
          have hP2 : ∀ l, i0 ≤ l → l < count → keys.getD l 0 ≠ k →
              occs k (childEnt d subs l) = [] := by
            intro l hl1 hl2 hlk
            apply occs_eq_nil_of_forall
            intro e he hek
            have h1 : keys.getD i0 0 ≤ keys.getD l 0 := hfmono i0 l hl1 hl2
            have h2 : keys.getD l 0 ≤ e.1 := by
              have := ((entries_bounds d _ _ (hwfc l hl2)) e he).1
              rw [hfenceC l hl2]
              exact this
            omega
          obtain ⟨hLA, hLB⟩ := find_loop_spec k d keys subs count hwf ih
            (count - i0) i0 s hs0 (by omega) hP2
            (fun _ => by rw [hexact])
          refine ⟨?_, ?_, ?_⟩
          · rw [hLA, hE, hskip]
          · intro hdisj
            exfalso
            rcases hdisj with hnil | hlt2 | hlt2
            · exact hne hnil
            · rw [hhead] at hlt2
              have := hfmono 0 i0 (by omega) hi0lt
              omega
            · rw [hlastE] at hlt2
              have hnel : childEnt d subs (count - 1) ≠ [] :=
                entries_ne_nil d _ _ (hwfc _ (by omega)) (hcnt _ (by omega))
              have hm1 := getLastD_mem (childEnt d subs (count - 1)) (0, 0) hnel
              have hb1 := (entries_bounds d _ _ (hwfc (count - 1) (by omega))) _ hm1
              have hc2 : keys.getD i0 0 ≤ keys.getD (count - 1) 0 :=
                hfmono i0 (count - 1) (by omega) (by omega)
              have hc3 : keys.getD (count - 1) 0 ≤
                  ((childEnt d subs (count - 1)).getLastD (0, 0)).1 := by
                rw [hfenceC (count - 1) (by omega)]
                exact hb1.1
              omega
          · intro hlast hne2 hlen
            rw [hlastE] at hlast
            rw [hE, hskip] at hlen
            obtain ⟨hL1, hL2⟩ := hLB hlast (fun _ => hexact) hlen
            rw [hE, hskip]
            exact ⟨hL1, hL2⟩
        · rw [if_neg hexact]
          have hnomatch : ∀ l, l < count → keys.getD l 0 ≠ k := by
            intro l hl hlk
            obtain ⟨_, habs, _⟩ := hbs.2.2.1 l hl hlk
            exact hexact habs
          obtain ⟨hi0lt2, hi0max⟩ := hbs.2.2.2 hnomatch hge0
          -- k occurs in child i0 only
          have hprefix : ∀ l, l < i0 → occs k (childEnt d subs l) = [] := by
            intro l hl
            apply occs_eq_nil_of_forall
            intro e he hek
            have hl1 : l < count - 1 := by omega
            have hub : e.1 ≤ keys.getD (l + 1) 0 := hordC l hl1 e he
            have hfle : keys.getD (l + 1) 0 ≤ keys.getD i0 0 :=
              hfmono (l + 1) i0 (by omega) hi0lt
            omega
          have hsuffix : ∀ l, i0 + 1 ≤ l → l < count →
              occs k (childEnt d subs l) = [] := by
            intro l hl1 hl2
            apply occs_eq_nil_of_forall
            intro e he hek
            have hflgt : ¬ keys.getD l 0 < k := by
              intro hlt2
              have := hi0max l hl2 hlt2
              omega
            have h2 : keys.getD l 0 ≤ e.1 := by
              have := ((entries_bounds d _ _ (hwfc l hl2)) e he).1
              rw [hfenceC l hl2]
              exact this
            have := hnomatch l hl2
            omega
          have hskip : occs k (tailEnts d subs count 0) =
              occs k (tailEnts d subs count i0) := by
            have := occs_tail_skip k d subs count hs2 i0 0 (by omega)
              (fun l hl1 hl2 => hprefix l (by omega))
            simpa using this
          have htail1 : occs k (tailEnts d subs count (i0 + 1)) = [] :=
            occs_tail_nil k d subs count hs2 (count - (i0 + 1)) (i0 + 1)
              (by omega) (fun l hl1 hl2 => hsuffix l hl1 hl2)
          have hEocc : occs k (entriesAt (d + 1) (Page.node keys subs) count) =
              occs k (childEnt d subs i0) := by
            rw [hE, hskip, tailEnts_step d subs count i0 hs2 hi0lt,
              occs_append, htail1, List.append_nil]
          obtain ⟨cA, cB, cC⟩ := ih (subs.getD i0 (default, 0)).1
            (subs.getD i0 (default, 0)).2 s (hwfc i0 hi0lt) hs0
          refine ⟨?_, ?_, ?_⟩
          · rw [hEocc]
            exact cA
          · intro hdisj
            rcases hdisj with hnil | hlt2 | hlt2
            · exact absurd hnil hne
            · exfalso
              rw [hhead] at hlt2
              exact hkge0 hlt2
            · -- the target exceeds every key: i0 must be the last child
              rw [hlastE] at hlt2
              have hi0last : i0 = count - 1 := by
                by_contra hneq
                have hl2 : i0 + 1 ≤ count - 1 := by omega
                have hflgt : ¬ keys.getD (count - 1) 0 < k := by
                  intro hlt3
                  have := hi0max (count - 1) (by omega) hlt3
                  omega
                have hnel : childEnt d subs (count - 1) ≠ [] :=
                  entries_ne_nil d _ _ (hwfc _ (by omega)) (hcnt _ (by omega))
                have hm1 := getLastD_mem (childEnt d subs (count - 1)) (0, 0) hnel
                have hb1 := (entries_bounds d _ _ (hwfc (count - 1) (by omega))) _ hm1
                have hc3 : keys.getD (count - 1) 0 ≤
                    ((childEnt d subs (count - 1)).getLastD (0, 0)).1 := by
                  rw [hfenceC (count - 1) (by omega)]
                  exact hb1.1
                have := hnomatch (count - 1) (by omega)
                omega
              apply cB
              rw [← hi0last] at hlt2
              exact Or.inr (Or.inr hlt2)
          · intro hlast hne2 hlen
            rw [hlastE] at hlast
            have hi0last : i0 = count - 1 := by
              by_contra hneq
              have hflgt : ¬ keys.getD (count - 1) 0 < k := by
                intro hlt3
                have := hi0max (count - 1) (by omega) hlt3
                omega
              have hnel : childEnt d subs (count - 1) ≠ [] :=
                entries_ne_nil d _ _ (hwfc _ (by omega)) (hcnt _ (by omega))
              have hb1 : ((childEnt d subs (count - 1)).headD (0, 0)).1 ≤
                  ((childEnt d subs (count - 1)).getLastD (0, 0)).1 :=
                ((entries_bounds d _ _ (hwfc (count - 1) (by omega))) _
                  (getLastD_mem _ (0, 0) hnel)).1
              have hc3 : keys.getD (count - 1) 0 =
                  ((childEnt d subs (count - 1)).headD (0, 0)).1 :=
                hfenceC (count - 1) (by omega)
              have := hnomatch (count - 1) (by omega)
              -- head of last child ≤ its last = k, head = fence > k impossible
              omega
            rw [hEocc] at hlen ⊢
            rw [← hi0last] at hlast
            apply cC hlast
              (entries_ne_nil d _ _ (hwfc i0 hi0lt) (hcnt i0 hi0lt)) hlen

/-- C6: on any tree satisfying the data-model invariants (sorted pages
with correct lengths, children carrying correct counts and fence keys,
duplicate runs not torn across siblings), `find(key, occurrence)` returns
the `occurrence`-th (0-indexed) value stored under `key` in storage
order, and not-found when `key` is absent or `occurrence` is at least the
number of values stored under `key` — in particular the search never
spills into non-matching siblings. -/
theorem claim_C6 (root : Page) (rootCount depth : Nat) (k : Nat)
    (occurrence : Nat) (hwf : wf depth root rootCount = true) :
    find root rootCount depth k (occurrence : Int) =
      (occs k (entriesAt depth root rootCount))[occurrence]? := by
  have h := (find_rec_spec k depth root rootCount (occurrence : Int) hwf
    (by omega)).1
  rw [find, h]
  have : ((occurrence : Int)).toNat = occurrence := by omega
  rw [this]

/-- Witness for C6 at a concrete two-level tree holding the entries
(1,10) (2,20) (5,30) (5,40) (5,50) (7,60): looking up the second
occurrence of key 5 returns value 40. -/
theorem claim_C6_witness :
    wf 1 (Page.node [1, 5, 5] [(Page.leaf [1, 2] [10, 20], 2),
      (Page.leaf [5, 5] [30, 40], 2), (Page.leaf [5, 7] [50, 60], 2)]) 3 = true ∧
    find (Page.node [1, 5, 5] [(Page.leaf [1, 2] [10, 20], 2),
      (Page.leaf [5, 5] [30, 40], 2), (Page.leaf [5, 7] [50, 60], 2)]) 3 1 5
      ((1 : Nat) : Int) =
      (occs 5 (entriesAt 1 (Page.node [1, 5, 5] [(Page.leaf [1, 2] [10, 20], 2),
        (Page.leaf [5, 5] [30, 40], 2), (Page.leaf [5, 7] [50, 60], 2)]) 3))[(1 : Nat)]? :=
  ⟨by decide, claim_C6 _ 3 1 5 1 (by decide)⟩

/-- Running `pure` writes nothing. -/
theorem preserves_pure {α : Type} (a : α) : preserves (pure a : M α) :=
  fun _ => rfl

/-- A bind of two store-preserving computations preserves the store (the
error case short-circuits with the store it was handed). -/
theorem preserves_bind {α β : Type} {m : M α} {k : α → M β}
    (hm : preserves m) (hk : ∀ a, preserves (k a)) : preserves (m >>= k) := by
  intro st
  have key : runM (m >>= k) st =
      (ExceptT.bindCont k) ((runM m st).1) ((runM m st).2) := rfl
  rcases h : runM m st with ⟨r, st1⟩
  have h2 : st1 = st := by have h3 := hm st; rw [h] at h3; exact h3
  rw [h] at key
  cases r with
  | ok a =>
    have key2 : runM (m >>= k) st = runM (k a) st1 := key
    rw [key2, hk a st1, h2]
  | error e =>
    have key2 : runM (m >>= k) st = (Except.error e, st1) := key
    rw [key2, h2]

/-- Reading the tree handle writes nothing. -/
theorem preserves_get : preserves (get : M St) := fun _ => rfl

/-- Reading a page writes nothing. -/
theorem preserves_getPage (p : Option Nat) : preserves (getPage p) :=
  fun _ => rfl

/-- Reading a key writes nothing. -/
theorem preserves_readKey (p : Option Nat) (i : Nat) : preserves (readKey p i) :=
  fun _ => rfl

/-- Reading a child descriptor writes nothing. -/
theorem preserves_readSub (p : Option Nat) (i : Nat) : preserves (readSub p i) :=
  fun _ => rfl

/-- A branch between two store-preserving computations preserves the
store. -/
theorem preserves_ite {α : Type} {c : Prop} [Decidable c] {m m2 : M α}
    (h1 : preserves m) (h2 : preserves m2) : preserves (if c then m else m2) := by
  split
  · exact h1
  · exact h2

/-- The sibling scan of `find_rec` only reads: it probes keys and child
descriptors and recurses, never writing the store. -/
theorem find_loop_st_preserves
    (recurse : Int → Option Nat → Nat → M (Option (Nat × Nat) × Int))
    (hrec : ∀ s p c, preserves (recurse s p c))
    (idx : Nat) (pid : Option Nat) (count : Nat) :
    ∀ rem j sub, preserves (find_loop_st recurse idx pid count rem j sub) := by
  intro rem
  induction rem with
  | zero => intro j sub; exact preserves_pure _
  | succ rem ih =>
    intro j sub
    rw [find_loop_st]
    refine preserves_bind (preserves_readKey _ _) fun kj => ?_
    refine preserves_ite ?_ (preserves_pure _)
    refine preserves_bind (preserves_readSub _ _) fun n => ?_
    refine preserves_bind (hrec _ _ _) fun r => ?_
    refine preserves_ite (preserves_pure _) ?_
    exact preserves_ite (preserves_pure _) (ih (j + 1) r.2)

/-- `find_rec` over the heap only reads: at every level it probes pages
and descends, never writing the store. -/
theorem find_rec_st_preserves (idx : Nat) :
    ∀ depth sub ptr count,
      preserves (find_rec_st idx depth sub ptr count) := by
  intro depth
  induction depth with
  | zero =>
    intro sub ptr count
    rw [find_rec_st]
    refine preserves_bind (preserves_getPage _) fun pg => ?_
    refine preserves_ite (preserves_pure _) ?_
    refine preserves_ite ?_ (preserves_pure _)
    refine preserves_ite ?_ (preserves_pure _)
    exact preserves_ite (preserves_pure _) (preserves_pure _)
  | succ depth ih =>
    intro sub ptr count
    rw [find_rec_st]
    refine preserves_bind (preserves_getPage _) fun pg => ?_
    refine preserves_ite (preserves_pure _) ?_
    refine preserves_ite ?_ ?_
    · exact find_loop_st_preserves _ (fun s p c => ih s p c) idx ptr count _ _ sub
    · exact preserves_bind (preserves_readSub _ _) fun n => ih sub n.ptr n.count

/-- C10: a `find` call leaves the entire tree state — every page and the
tree handle — unchanged, and repeating it on the resulting state returns
the same result: `find_rec` and `find` only read the store. -/
theorem claim_C10 (st : St) (idx : Nat) (sub_idx : Int) :
    (runM (find_st idx sub_idx) st).2 = st ∧
    runM (find_st idx sub_idx) ((runM (find_st idx sub_idx) st).2) =
      runM (find_st idx sub_idx) st := by
  have hp : preserves (find_st idx sub_idx) := by
    rw [find_st]
    refine preserves_bind preserves_get fun st1 => ?_
    exact preserves_bind (find_rec_st_preserves idx _ _ _ _) fun r =>
      preserves_pure _
  refine ⟨hp st, ?_⟩
  rw [hp st]

/-- C1 is refuted as stated: from a fresh tree, inserting 10 then 20
under key 5 makes both insertions return the same slot (0, 0) (the
second insert shifts the first value aside and takes its place), so
`find(5, 0)` reads 20 where the claim demands the first-inserted 10, and
`find(5, 1)` returns slot (0, 1), not the handle the second insertion
returned. -/
theorem claim_C1_counterexample :
    ((runM (insert_put 5 10) fresh_st).1,
      (runM (do let _ ← insert_put 5 10; insert_put 5 20) fresh_st).1,
      findVal (twoDup_st 10 20) 5 0,
      (runM (find_st 5 1) (twoDup_st 10 20)).1) =
    (.ok (some (0, 0)), .ok (some (0, 0)), some 20, .ok (some (0, 1))) ∧
    some (20 : Nat) ≠ some 10 := by
  exact ⟨by with_unfolding_all rfl, by decide⟩

/-- C1 (amended): each new duplicate is placed at the START of the
equal-key run, so storage order is the REVERSE of insertion order: after
inserting payloads A then B under key 5 into a fresh tree the leaf holds
[B, A], and (at payloads 10, 20) `find(5, 0)` yields the later value,
`find(5, 1)` the earlier one, `find(5, 2)` not-found. -/
theorem claim_C1 (A B : Nat) :
    (((twoDup_st A B).pages.getD 0 nilPage).vals.take 2,
      ((twoDup_st A B).pages.getD 0 nilPage).keys.take 2,
      (twoDup_st A B).tree_root) = ([B, A], [5, 5], ⟨some 0, 2⟩) ∧
    (findVal (twoDup_st 10 20) 5 0, findVal (twoDup_st 10 20) 5 1,
      findVal (twoDup_st 10 20) 5 2) = (some 20, some 10, none) := by
  exact ⟨by with_unfolding_all rfl, by with_unfolding_all rfl⟩

/-- C2 is refuted: inserting 2, 3, 1 into a fresh tree leaves the root
leaf keys [1, 2, 0] over count 3 — not non-decreasing (2 > 0 at adjacent
valid positions), and key 3 has vanished: the memmove that should shift
the two later entries right moves exactly one slot (its size lacks the
element count), overwriting key 3 with key 2. -/
theorem claim_C2_counterexample :
    (seq231_st.tree_root,
      (seq231_st.pages.getD 0 nilPage).keys.take 3,
      (seq231_st.pages.getD 0 nilPage).vals.take 3) =
    (⟨some 0, 3⟩, [1, 2, 0], [101, 102, 0]) ∧
    ¬ ((2 : Nat) ≤ 0) ∧ (3 : Nat) ∉ ([1, 2, 0] : List Nat) := by
  exact ⟨by with_unfolding_all rfl, by decide, by decide⟩

/-- C3 is refuted: inserting into a tree whose root leaf is full splits
the root and increments the depth, but no new root is allocated — the
tree handle still points at the old half (page 0) with its truncated
count 256, the interior-page arena was never used (`node_allocs = 0`),
and the only new page is the split sibling. The upper half is not
reachable from the handle. -/
theorem claim_C3_counterexample :
    ((runM (insert 600) fullRoot_st).2.tree_depth,
      (runM (insert 600) fullRoot_st).2.tree_root,
      (runM (insert 600) fullRoot_st).2.node_allocs,
      (runM (insert 600) fullRoot_st).2.pages.length) =
    (fullRoot_st.tree_depth + 1, ⟨fullRoot_st.tree_root.ptr, 256⟩, 0, 2) := by
  with_unfolding_all rfl

/-- C4 is refuted: an insert of key 600 into `parentChild_st` splits the
full child into new page 2 and stores the value there (slot (2, 256)),
but the parent interior page afterwards still has count 1, and neither
its valid entry (slot 0) nor the one slot the insertion code wrote
(slot 1, a copy of slot 0) references page 2: the new sibling is never
linked into the parent. -/
theorem claim_C4_counterexample :
    ((runM (insert 600) parentChild_st).1,
      (runM (insert 600) parentChild_st).2.tree_root,
      (runM (insert 600) parentChild_st).2.pages.length,
      ((runM (insert 600) parentChild_st).2.pages.getD 1 nilPage).subs.getD 0 ⟨none, 0⟩,
      ((runM (insert 600) parentChild_st).2.pages.getD 1 nilPage).subs.getD 1 ⟨none, 0⟩) =
    (.ok (some (2, 256)), ⟨some 1, 1⟩, 3, ⟨some 0, 256⟩, ⟨some 0, 256⟩) := by
  with_unfolding_all rfl

/-- C5 is refuted: splitting the full sorted leaf 0..511 (not a
collision page: first and last keys differ) leaves key 0 as a valid key
of BOTH halves — the key memmove copies the LOW half (offset 0) into the
sibling instead of the upper half (offset `split_idx`), so the sibling
keys start 0..255 while its values are those of slots 256..511, and the
upper keys are lost entirely. -/
theorem claim_C5_counterexample :
    ((runM (split_node Ref.root true) fullRoot_st).1,
      (runM (split_node Ref.root true) fullRoot_st).2.tree_root,
      fullLeaf.keys.getD 0 0, fullLeaf.keys.getD 511 0,
      ((runM (split_node Ref.root true) fullRoot_st).2.pages.getD 0 nilPage).keys.getD 0 0,
      ((runM (split_node Ref.root true) fullRoot_st).2.pages.getD 1 nilPage).keys.getD 0 0,
      ((runM (split_node Ref.root true) fullRoot_st).2.pages.getD 1 nilPage).keys.getD 255 0,
      ((runM (split_node Ref.root true) fullRoot_st).2.pages.getD 1 nilPage).vals.getD 0 0) =
    (.ok ⟨some 1, 256⟩, ⟨some 0, 256⟩, 0, 511, 0, 0, 255, 1256) := by
  with_unfolding_all rfl

/-- C9 is refuted in its rollback half: with the arena exhausted, an
insert into a full root leaf fails — but the tree is NOT left as it was:
the root count has been truncated to 256 (the source truncates the page
being split BEFORE allocating the sibling). -/
theorem claim_C9_counterexample :
    (runM (insert 600) (noBudget_st [])).1 = .error () ∧
    (runM (insert 600) (noBudget_st [])).2.tree_root.count = 256 ∧
    (runM (insert 600) (noBudget_st [])).2 ≠ noBudget_st [] := by
  refine ⟨by with_unfolding_all rfl, by with_unfolding_all rfl, ?_⟩
  intro h
  have h2 : (runM (insert 600) (noBudget_st [])).2.tree_root.count =
      (noBudget_st []).tree_root.count := by rw [h]
  have h4 : (runM (insert 600) (noBudget_st [])).2.tree_root.count = 256 := by
    with_unfolding_all rfl
  rw [h4] at h2
  exact absurd h2.symm (by decide)

/-- C9 (amended): the allocation failure does propagate unchanged to the
insert caller as an explicit, catchable failure — but the tree is
mutated, not preserved: the failed insert leaves the state exactly equal
to the pre-call state with the root count truncated from 512 to 256 and
nothing else changed (no page content, no value, no budget), because the
source truncates the page being split before attempting the allocation. -/
theorem claim_C9 :
    runM (insert 600) (noBudget_st fullVals) =
      (.error (), { noBudget_st fullVals with tree_root := ⟨some 0, 256⟩ }) := by
  with_unfolding_all rfl

end PageTree
